import Mathlib

/-
  Verification of the dsp library (github.com/dac1976/dsp) against its
  natural-language specification.

  The C++ sources are shallowly embedded: machine-size unsigned integers
  become ℕ, floating-point scalars become exact ℚ or ℝ (so "within floating
  tolerance" statements become exact equalities), std::complex<T> becomes ℂ,
  std::vector becomes List, in-place mutation becomes explicit state passing,
  and DSP_ASSERT_THROW becomes an error value carried next to the
  (unchanged) buffer.  Each definition mirrors one function of the sources,
  file and line references are given at the definition site.
-/

set_option maxHeartbeats 1000000

namespace dsp

/-! ## Math kernel (dsp_math.hpp) -/

/-- Embedding of `IsPowerOf2` (dsp_math.hpp:237-242):
`return (n > 0) && ((n & (n - 1)) == 0);` for an unsigned `n`. -/
def IsPowerOf2 (n : ℕ) : Bool :=
  decide (0 < n) && (n &&& (n - 1) == 0)

/-- Embedding of the binary-GCD `Gcd` (dsp_math.hpp:188-230).
`~a & 1` tests that `a` is even, `a >> 1` is `a / 2`. -/
def Gcd (a b : ℕ) : ℕ :=
  if a = b then a
  else if a = 0 then b
  else if b = 0 then a
  else if a % 2 = 0 then
    if b % 2 = 1 then Gcd (a / 2) b
    else Gcd (a / 2) (b / 2) * 2
  else if b % 2 = 0 then Gcd a (b / 2)
  else if b < a then Gcd ((a - b) / 2) b
  else Gcd ((b - a) / 2) a
termination_by a + b
decreasing_by
  all_goals omega

/-- Embedding of `Convolve` (dsp_math.hpp:60-87) over a commutative ring
(the C++ is a template over the iterator value types).  For each output
index `k < M + N - 1` the inner loop accumulates
`x[kSub] * h[k - kSub]` for `kSub` from
`kMin = (k >= N-1 ? k-(N-1) : 0)` to `kMax = (k < M-1 ? k : M-1)`.
The two `DSP_ASSERT_THROW`s require both ranges non-empty; we model the
successful path (the failure path returns no output at all). -/
def Convolve {α : Type} [CommRing α] (x h : List α) : List α :=
  let M := x.length
  let N := h.length
  let K := M + N - 1
  (List.range K).map (fun k =>
    let kMin := if N - 1 ≤ k then k - (N - 1) else 0
    let kMax := if k < M - 1 then k else M - 1
    ∑ j ∈ Finset.range (kMax + 1 - kMin),
      x.getD (kMin + j) 0 * h.getD (k - (kMin + j)) 0)

/-! ### Power-of-two bit trick -/

theorem land_two_pow_pred_eq_zero (k : ℕ) : 2 ^ k &&& (2 ^ k - 1) = 0 := by
  apply Nat.eq_of_testBit_eq
  intro i
  rw [Nat.testBit_land, Nat.testBit_two_pow, Nat.testBit_two_pow_sub_one,
    Nat.zero_testBit]
  by_cases h : k = i
  · subst h
    simp
  · simp [h]

theorem testBit_of_between (n k : ℕ) (h1 : 2 ^ k ≤ n) (h2 : n < 2 ^ (k + 1)) :
    n.testBit k = true := by
  rw [Nat.testBit_to_div_mod]
  have hpos : 0 < 2 ^ k := Nat.pos_pow_of_pos k (by norm_num)
  have hdiv : n / 2 ^ k = 1 := by
    have hlow : 1 ≤ n / 2 ^ k := (Nat.one_le_div_iff hpos).2 h1
    have hhigh : n / 2 ^ k < 2 := by
      rw [Nat.div_lt_iff_lt_mul hpos]
      rw [pow_succ] at h2
      omega
    omega
  rw [hdiv]
  decide

theorem IsPowerOf2_iff (n : ℕ) : IsPowerOf2 n = true ↔ ∃ k, n = 2 ^ k := by
  constructor
  · intro h
    rw [IsPowerOf2, Bool.and_eq_true, beq_iff_eq, decide_eq_true_eq] at h
    obtain ⟨hpos, hland⟩ := h
    refine ⟨n.log2, ?_⟩
    have hle : 2 ^ n.log2 ≤ n := Nat.log2_self_le (by omega)
    have hlt : n < 2 ^ (n.log2 + 1) := Nat.lt_log2_self
    by_contra hne2
    have hgt : 2 ^ n.log2 < n := lt_of_le_of_ne hle (fun hh => hne2 hh.symm)
    have hb1 : n.testBit n.log2 = true := testBit_of_between n n.log2 hle hlt
    have hb2 : (n - 1).testBit n.log2 = true := by
      apply testBit_of_between
      · omega
      · omega
    have : (n &&& (n - 1)).testBit n.log2 = false := by
      rw [hland, Nat.zero_testBit]
    rw [Nat.testBit_land, hb1, hb2] at this
    simp at this
  · rintro ⟨k, rfl⟩
    rw [IsPowerOf2, Bool.and_eq_true, beq_iff_eq, decide_eq_true_eq]
    exact ⟨Nat.pos_pow_of_pos k (by norm_num), land_two_pow_pred_eq_zero k⟩

/-! ### Binary GCD agrees with the mathematical gcd -/

theorem Gcd_eq_gcd_aux (n : ℕ) : ∀ a b, a + b ≤ n → Gcd a b = Nat.gcd a b := by
  induction n with
  | zero =>
    intro a b hab
    have ha : a = 0 := by omega
    have hb : b = 0 := by omega
    subst ha
    subst hb
    rw [Gcd]
    simp
  | succ n ih =>
    intro a b hab
    rw [Gcd]
    split_ifs with h1 h2 h3 h4 h5 h6 h7
    · subst h1
      exact (Nat.gcd_self a).symm
    · subst h2
      exact (Nat.gcd_zero_left b).symm
    · subst h3
      exact (Nat.gcd_zero_right a).symm
    · -- a even, b odd : Gcd (a/2) b
      rw [ih (a / 2) b (by omega)]
      have hcop : Nat.Coprime 2 b := Nat.coprime_two_left.2 (Nat.odd_iff.2 h5)
      have h2a : a = 2 * (a / 2) := by omega
      conv_rhs => rw [h2a]
      rw [Nat.Coprime.gcd_mul_left_cancel _ hcop]
    · -- a even, b even : Gcd (a/2) (b/2) * 2
      rw [ih (a / 2) (b / 2) (by omega)]
      have h2a : a = 2 * (a / 2) := by omega
      have h2b : b = 2 * (b / 2) := by omega
      conv_rhs => rw [h2a, h2b]
      rw [Nat.gcd_mul_left]
      ring
    · -- a odd, b even : Gcd a (b/2)
      rw [ih a (b / 2) (by omega)]
      have hcop : Nat.Coprime 2 a := by
        rw [Nat.coprime_two_left, Nat.odd_iff]
        omega
      have h2b : b = 2 * (b / 2) := by omega
      conv_rhs => rw [h2b]
      rw [Nat.Coprime.gcd_mul_left_cancel_right _ hcop]
    · -- both odd, b < a : Gcd ((a-b)/2) b
      rw [ih ((a - b) / 2) b (by omega)]
      have hcop : Nat.Coprime 2 b := by
        rw [Nat.coprime_two_left, Nat.odd_iff]
        omega
      have h2m : a - b = 2 * ((a - b) / 2) := by omega
      have hstep : Nat.gcd ((a - b) / 2) b = Nat.gcd (a - b) b := by
        conv_rhs => rw [h2m]
        rw [Nat.Coprime.gcd_mul_left_cancel _ hcop]
      rw [hstep, Nat.gcd_sub_self_left (by omega)]
    · -- both odd, a < b : Gcd ((b-a)/2) a
      rw [ih ((b - a) / 2) a (by omega)]
      have hcop : Nat.Coprime 2 a := by
        rw [Nat.coprime_two_left, Nat.odd_iff]
        omega
      have h2m : b - a = 2 * ((b - a) / 2) := by omega
      have hstep : Nat.gcd ((b - a) / 2) a = Nat.gcd (b - a) a := by
        conv_rhs => rw [h2m]
        rw [Nat.Coprime.gcd_mul_left_cancel _ hcop]
      rw [hstep, Nat.gcd_sub_self_left (by omega), Nat.gcd_comm]

theorem Gcd_eq_gcd (a b : ℕ) : Gcd a b = Nat.gcd a b :=
  Gcd_eq_gcd_aux (a + b) a b le_rfl

/-! ### Convolution: length, pointwise formula, commutativity (claim C3) -/

theorem Convolve_length {α : Type} [CommRing α] (x h : List α) :
    (Convolve x h).length = x.length + h.length - 1 := by
  simp [Convolve]

theorem Convolve_getD {α : Type} [CommRing α] (x h : List α) (k : ℕ)
    (hh : h ≠ []) (hk : k < x.length + h.length - 1) :
    (Convolve x h).getD k 0 =
      ∑ j ∈ Finset.Icc (k + 1 - h.length) (min k (x.length - 1)),
        x.getD j 0 * h.getD (k - j) 0 := by
  have hN : 1 ≤ h.length := List.length_pos.2 hh
  rw [List.getD_eq_getElem _ _ (by rwa [Convolve_length])]
  simp only [Convolve, List.getElem_map, List.getElem_range]
  have hmin : (if h.length - 1 ≤ k then k - (h.length - 1) else 0)
      = k + 1 - h.length := by
    split_ifs with hc <;> omega
  have hmax : (if k < x.length - 1 then k else x.length - 1)
      = min k (x.length - 1) := by
    split_ifs with hc <;> omega
  rw [hmin, hmax, ← Nat.Ico_succ_right, Finset.sum_Ico_eq_sum_range]

theorem Convolve_comm {α : Type} [CommRing α] (x h : List α)
    (hx : x ≠ []) (hh : h ≠ []) : Convolve x h = Convolve h x := by
  have hM : 1 ≤ x.length := List.length_pos.2 hx
  have hN : 1 ≤ h.length := List.length_pos.2 hh
  have hlen : (Convolve x h).length = (Convolve h x).length := by
    rw [Convolve_length, Convolve_length]
    omega
  apply List.ext_getElem hlen
  intro k hk1 hk2
  have hkK : k < x.length + h.length - 1 := by rwa [Convolve_length] at hk1
  rw [← List.getD_eq_getElem _ 0 hk1, ← List.getD_eq_getElem _ 0 hk2,
    Convolve_getD x h k hh hkK,
    Convolve_getD h x k hx (by omega)]
  apply Finset.sum_nbij' (fun j => k - j) (fun j => k - j)
  · intro a ha
    rw [Finset.mem_Icc] at ha ⊢
    omega
  · intro a ha
    rw [Finset.mem_Icc] at ha ⊢
    omega
  · intro a ha
    rw [Finset.mem_Icc] at ha
    omega
  · intro a ha
    rw [Finset.mem_Icc] at ha
    omega
  · intro a ha
    rw [Finset.mem_Icc] at ha
    have : k - (k - a) = a := by omega
    rw [this, mul_comm]

/-- Claim C3: for every non-empty input `x` of length `M` and non-empty
kernel `h` of length `N`, `Convolve(x, h)` writes exactly `M+N-1` output
values with `y[k]` the sum of `x[j]*h[k-j]` over the valid overlap range
`max(0, k-N+1) ≤ j ≤ min(k, M-1)` (over ℕ the lower bound is `k+1-N`);
`Convolve([1..10], [1,1,1]) = [1,3,6,9,12,15,18,21,24,27,19,10]`; and
swapping the two operand ranges yields the same result. -/
theorem claim_C3_convolve_spec :
    (∀ (α : Type) [CommRing α] (x h : List α), x ≠ [] → h ≠ [] →
      (Convolve x h).length = x.length + h.length - 1 ∧
      (∀ k, k < x.length + h.length - 1 →
        (Convolve x h).getD k 0 =
          ∑ j ∈ Finset.Icc (k + 1 - h.length) (min k (x.length - 1)),
            x.getD j 0 * h.getD (k - j) 0) ∧
      Convolve x h = Convolve h x)
    ∧ Convolve [1, 2, 3, 4, 5, 6, 7, 8, 9, 10] [1, 1, 1]
        = ([1, 3, 6, 9, 12, 15, 18, 21, 24, 27, 19, 10] : List ℤ) := by
  constructor
  · intro α _ x h hx hh
    exact ⟨Convolve_length x h,
      fun k hk => Convolve_getD x h k hh hk,
      Convolve_comm x h hx hh⟩
  · decide

/-- Witness for claim C3 at a concrete input. -/
theorem claim_C3_witness :
    ([1, 2] : List ℤ) ≠ [] ∧ ([3] : List ℤ) ≠ [] ∧
    ((Convolve [1, 2] [3] : List ℤ).length = 2 + 1 - 1 ∧
      (∀ k, k < 2 + 1 - 1 →
        (Convolve ([1, 2] : List ℤ) [3]).getD k 0 =
          ∑ j ∈ Finset.Icc (k + 1 - 1) (min k (2 - 1)),
            ([1, 2] : List ℤ).getD j 0 * ([3] : List ℤ).getD (k - j) 0) ∧
      Convolve ([1, 2] : List ℤ) [3] = Convolve [3] [1, 2]) := by
  refine ⟨by decide, by decide, ?_⟩
  have := claim_C3_convolve_spec.1 ℤ [1, 2] [3] (by decide) (by decide)
  simpa using this

/-! ## Resampled size (dsp_resample.hpp) -/

/-- Embedding of `Resample::ComputeResampledSize` (dsp_resample.hpp:440-447):
`m_resampledLength = static_cast<size_t>(std::floor(double(U*N) / double(D)) + 0.5)`.
Note the `+ 0.5` is added after `std::floor` and removed again by the
truncating cast.  Doubles are modelled as exact rationals. -/
def ComputeResampledSize (signalLength upsampleFactor downsampleFactor : ℕ) : ℕ :=
  (⌊(⌊((upsampleFactor * signalLength : ℕ) : ℚ) / (downsampleFactor : ℚ)⌋ : ℚ)
    + 1 / 2⌋).toNat

/-- Modelled from the spec for claim C4: the spec's formula
`floor(N*U/D + 0.5)` with the `+ 0.5` inside the floor. -/
def specResampledSize (signalLength upsampleFactor downsampleFactor : ℕ) : ℕ :=
  (⌊((upsampleFactor * signalLength : ℕ) : ℚ) / (downsampleFactor : ℚ)
    + 1 / 2⌋).toNat

/-- Counterexample for claim C4: at `N = 1, U = 1, D = 2` the code returns
`floor(1/2) = 0`, while the spec's `floor(1/2 + 0.5)` would give `1`. -/
theorem claim_C4_counterexample :
    ComputeResampledSize 1 1 2 = 0 ∧ specResampledSize 1 1 2 = 1 ∧
      ComputeResampledSize 1 1 2 ≠ specResampledSize 1 1 2 := by
  have h1 : ComputeResampledSize 1 1 2 = 0 := by
    rw [ComputeResampledSize]
    norm_num
  have h2 : specResampledSize 1 1 2 = 1 := by
    rw [specResampledSize]
    norm_num
  exact ⟨h1, h2, by omega⟩

/-- Claim C4, amended: for every `Resample` constructed with signal length
`N ≥ 1`, upsample factor `U ≥ 1` and downsample factor `D ≥ 1`, the output
length reported by `ResampledSize()` equals `floor(N*U/D)` (the `+ 0.5`
in the code sits outside the floor and is removed by the truncating cast,
so the value is truncated, not rounded to nearest). -/
theorem claim_C4_resampled_size (N U D : ℕ)
    (hN : 1 ≤ N) (hU : 1 ≤ U) (hD : 1 ≤ D) :
    ComputeResampledSize N U D = U * N / D := by
  have key : (⌊((U * N : ℕ) : ℚ) / ((D : ℕ) : ℚ)⌋ : ℤ) = ((U * N / D : ℕ) : ℤ) := by
    rw [Rat.floor_natCast_div_natCast, Int.natCast_div]
  rw [ComputeResampledSize, key, Int.floor_int_add]
  rw [show ⌊(1 / 2 : ℚ)⌋ = 0 by norm_num, add_zero, Int.toNat_natCast]

/-- Witness for claim C4. -/
theorem claim_C4_witness :
    1 ≤ 5 ∧ 1 ≤ 3 ∧ 1 ≤ 2 ∧ ComputeResampledSize 5 3 2 = 3 * 5 / 2 :=
  ⟨by decide, by decide, by decide,
    claim_C4_resampled_size 5 3 2 (by decide) (by decide) (by decide)⟩

/-! ## FftConvolve workspace sizing (dsp_fft.hpp:946-956, claim C6) -/

/-- Embedding of the `m_discreteConvolutionLength` computation in the
`FftConvolve` constructor. -/
def FftConvolveDiscreteLength (signalLength kernelLength : ℕ) : ℕ :=
  signalLength + kernelLength - 1

/-- Embedding of the workspace sizing in the `FftConvolve` constructor
(dsp_fft.hpp:951-953):
`powerOf2 = size_t(floor(log2(L)) + 0.5); workspaceLength = 1 << (powerOf2 + 1)`.
For `L ≥ 1` the value `floor(log2 L)` is `Nat.log2 L`, and the `+ 0.5`
is removed by the truncating cast. -/
def FftConvolveWorkspaceLength (signalLength kernelLength : ℕ) : ℕ :=
  2 ^ (Nat.log2 (signalLength + kernelLength - 1) + 1)

/-- Modelled from the spec for claim C6: the smallest power of two that is
greater than or equal to `L`. -/
def specNextPow2Ge (L : ℕ) : ℕ := 2 ^ Nat.clog 2 L

/-- Counterexample for claim C6: for `signalLength = 2, kernelLength = 3`
the output length is `4`, itself a power of two, yet the code sizes the
workspaces to `8`, not to the smallest power of two `≥ 4`. -/
theorem claim_C6_counterexample :
    FftConvolveWorkspaceLength 2 3 = 8 ∧ specNextPow2Ge (2 + 3 - 1) = 4 ∧
      FftConvolveWorkspaceLength 2 3 ≠ specNextPow2Ge (2 + 3 - 1) := by
  have h1 : Nat.log2 4 = 2 := by simp [Nat.log2]
  have h2 : Nat.clog 2 4 = 2 := by
    rw [show (4 : ℕ) = 2 ^ 2 by norm_num, Nat.clog_pow] <;> norm_num
  refine ⟨?_, ?_, ?_⟩
  · rw [FftConvolveWorkspaceLength]
    norm_num [h1]
  · rw [specNextPow2Ge]
    norm_num [h2]
  · rw [FftConvolveWorkspaceLength, specNextPow2Ge]
    norm_num [h1, h2]

/-- Claim C6, amended: for every `FftConvolve` constructed with
`signalLength ≥ 1` and `kernelLength ≥ 1`, each complex workspace is sized
to the smallest power of two *strictly greater* than the discrete output
length `M + N - 1` (equal to `2 * (M+N-1)` rounded up whenever `M+N-1` is
itself a power of two), matching the constructor comment "power of 2
greater than N + M - 1". -/
theorem claim_C6_workspace_length (M N : ℕ) (hM : 1 ≤ M) (hN : 1 ≤ N) :
    FftConvolveDiscreteLength M N < FftConvolveWorkspaceLength M N ∧
    (∃ k, FftConvolveWorkspaceLength M N = 2 ^ k) ∧
    ∀ j, FftConvolveDiscreteLength M N < 2 ^ j →
      FftConvolveWorkspaceLength M N ≤ 2 ^ j := by
  simp only [FftConvolveDiscreteLength, FftConvolveWorkspaceLength]
  refine ⟨Nat.lt_log2_self, ⟨Nat.log2 (M + N - 1) + 1, rfl⟩, ?_⟩
  intro j hj
  have hle : 2 ^ Nat.log2 (M + N - 1) ≤ M + N - 1 := Nat.log2_self_le (by omega)
  have hlt : Nat.log2 (M + N - 1) < j :=
    (Nat.pow_lt_pow_iff_right (by norm_num)).1 (lt_of_le_of_lt hle hj)
  exact Nat.pow_le_pow_right (by norm_num) (by omega)

/-- Witness for claim C6. -/
theorem claim_C6_witness :
    1 ≤ 2 ∧ 1 ≤ 3 ∧ FftConvolveDiscreteLength 2 3 < FftConvolveWorkspaceLength 2 3 :=
  ⟨by decide, by decide, (claim_C6_workspace_length 2 3 (by decide) (by decide)).1⟩

/-! ## ComputeResampleFactors (dsp_resample.hpp:157-212, claim C5)

The Stern-Brocot mediant loop is embedded as a step function on the loop
state together with a fuel-indexed runner; `none` means the loop has not
exited within the given fuel.  Doubles are modelled as exact rationals and
the initial `error = std::numeric_limits<double>::max()` as `none`
(every finite difference compares below it). -/

/-- Loop state of `ComputeResampleFactors`: the bracketing fractions
`n_a/d_a` and `n_b/d_b`, the best error seen and the best factors seen. -/
structure RSState where
  na : ℕ
  da : ℕ
  nb : ℕ
  db : ℕ
  err : Option ℚ
  factors : ℕ × ℕ
  deriving Repr, DecidableEq

/-- `absDiff < error`, where `none` models the initial DBL_MAX. -/
def errLt (absDiff : ℚ) : Option ℚ → Bool
  | none => true
  | some e => decide (absDiff < e)

/-- One iteration of the `while (true)` body of `ComputeResampleFactors`
(dsp_resample.hpp:169-209): form the mediant, reduce it by the GCD when
that exceeds 1, exit with the recorded factors when a bound is exceeded,
otherwise track the best candidate and narrow the bracket. -/
def rsStep (r : ℚ) (maxNumerator maxDenominator : ℕ) (s : RSState) :
    RSState ⊕ (ℕ × ℕ) :=
  let nm0 := s.na + s.nb
  let dm0 := s.da + s.db
  let g := Gcd nm0 dm0
  let nm := if 1 < g then nm0 / g else nm0
  let dm := if 1 < g then dm0 / g else dm0
  if maxNumerator < nm ∨ maxDenominator < dm then Sum.inr s.factors
  else
    let m : ℚ := (nm : ℚ) / (dm : ℚ)
    let absDiff := |m - r|
    let upd := errLt absDiff s.err
    let err2 := if upd then some absDiff else s.err
    let factors2 := if upd then (nm, dm) else s.factors
    if m ≤ r then Sum.inl ⟨nm, dm, s.nb, s.db, err2, factors2⟩
    else Sum.inl ⟨s.na, s.da, nm, dm, err2, factors2⟩

/-- Initial state of `ComputeResampleFactors` (dsp_resample.hpp:162-167):
`n_a = size_t(floor(r) + 0.5)`, `n_b = size_t(ceil(r) + 0.5)`,
`d_a = d_b = 1` (the `+ 0.5` disappears in the truncating cast). -/
def rsInit (r : ℚ) : RSState :=
  ⟨(⌊(⌊r⌋ : ℚ) + 1 / 2⌋).toNat, 1, (⌊(⌈r⌉ : ℚ) + 1 / 2⌋).toNat, 1, none, (0, 0)⟩

/-- Fuel-indexed runner for the loop; `none` = no exit within `fuel`. -/
def rsRun (r : ℚ) (maxNumerator maxDenominator : ℕ) :
    ℕ → RSState → Option (ℕ × ℕ)
  | 0, _ => none
  | fuel + 1, s =>
    match rsStep r maxNumerator maxDenominator s with
    | Sum.inr res => some res
    | Sum.inl s2 => rsRun r maxNumerator maxDenominator fuel s2

/-- Embedding of `ComputeResampleFactors` (dsp_resample.hpp:157-212). -/
def ComputeResampleFactors (r : ℚ) (maxNumerator maxDenominator : ℕ)
    (fuel : ℕ) : Option (ℕ × ℕ) :=
  rsRun r maxNumerator maxDenominator fuel (rsInit r)

theorem rsRun_none_of_fixed (r : ℚ) (mn md : ℕ) (s : RSState)
    (h : rsStep r mn md s = Sum.inl s) :
    ∀ fuel, rsRun r mn md fuel s = none := by
  intro fuel
  induction fuel with
  | zero => rfl
  | succ fuel ih =>
    rw [rsRun, h]
    exact ih

/-- Counterexample for claim C5: at the integer ratio `2` (with the default
bounds 128/128) the loop never terminates: the mediant `4/2` is reduced by
its GCD back to the bracket value `2/1`, so the bracket never changes. -/
theorem claim_C5_counterexample :
    ¬ ∃ fuel res, ComputeResampleFactors 2 128 128 fuel = some res := by
  have hg : Gcd 4 2 = 2 := by
    rw [Gcd_eq_gcd]
    decide
  have hstep1 : rsStep 2 128 128 ⟨2, 1, 2, 1, none, (0, 0)⟩
      = Sum.inl ⟨2, 1, 2, 1, some 0, (2, 1)⟩ := by
    rw [rsStep]
    norm_num [hg, errLt]
  have hstep2 : rsStep 2 128 128 ⟨2, 1, 2, 1, some 0, (2, 1)⟩
      = Sum.inl ⟨2, 1, 2, 1, some 0, (2, 1)⟩ := by
    rw [rsStep]
    norm_num [hg, errLt]
  have hinit : rsInit 2 = ⟨2, 1, 2, 1, none, (0, 0)⟩ := by
    rw [rsInit]
    norm_num
    decide
  have hshift : ∀ fuel, rsRun 2 128 128 (fuel + 1) ⟨2, 1, 2, 1, none, (0, 0)⟩
      = rsRun 2 128 128 fuel ⟨2, 1, 2, 1, some 0, (2, 1)⟩ := by
    intro fuel
    rw [rsRun, hstep1]
  rintro ⟨fuel, res, hrun⟩
  rw [ComputeResampleFactors, hinit] at hrun
  cases fuel with
  | zero => exact Option.noConfusion hrun
  | succ fuel =>
    rw [hshift, rsRun_none_of_fixed 2 128 128 _ hstep2] at hrun
    exact Option.noConfusion hrun

/-- Loop invariant: the bracket fractions are Stern-Brocot neighbours
(`n_b d_a - n_a d_b = 1`) with positive denominators. -/
def RSInv (s : RSState) : Prop :=
  s.nb * s.da = s.na * s.db + 1 ∧ 1 ≤ s.da ∧ 1 ≤ s.db

theorem rsStep_mediant_coprime (s : RSState) (hInv : RSInv s) :
    Nat.gcd (s.na + s.nb) (s.da + s.db) = 1 := by
  obtain ⟨hdet, hda, hdb⟩ := hInv
  set g := Nat.gcd (s.na + s.nb) (s.da + s.db) with hg
  have h1 : g ∣ s.na + s.nb := Nat.gcd_dvd_left _ _
  have h2 : g ∣ s.da + s.db := Nat.gcd_dvd_right _ _
  have h3 : g ∣ s.nb * (s.da + s.db) := Dvd.dvd.mul_left h2 _
  have h4 : g ∣ s.db * (s.na + s.nb) := Dvd.dvd.mul_left h1 _
  have h5 : g ∣ s.nb * (s.da + s.db) - s.db * (s.na + s.nb) := Nat.dvd_sub' h3 h4
  have h6 : s.nb * (s.da + s.db) - s.db * (s.na + s.nb) = 1 := by
    have e1 : s.nb * (s.da + s.db) = s.na * s.db + 1 + s.nb * s.db := by
      rw [Nat.mul_add, hdet]
    have e2 : s.db * (s.na + s.nb) = s.na * s.db + s.nb * s.db := by ring
    omega
  rw [h6] at h5
  exact Nat.dvd_one.1 h5

theorem rsStep_inl_invariant (r : ℚ) (mn md : ℕ) (s s2 : RSState)
    (hInv : RSInv s) (h : rsStep r mn md s = Sum.inl s2) :
    RSInv s2 ∧ s.da + s.db + 1 ≤ s2.da + s2.db := by
  obtain ⟨hdet, hda, hdb⟩ := hInv
  have hcop : Gcd (s.na + s.nb) (s.da + s.db) = 1 := by
    rw [Gcd_eq_gcd]
    exact rsStep_mediant_coprime s ⟨hdet, hda, hdb⟩
  rw [rsStep] at h
  simp only [hcop, Nat.lt_irrefl, if_false] at h
  by_cases hbound : mn < s.na + s.nb ∨ md < s.da + s.db
  · rw [if_pos hbound] at h
    exact Sum.noConfusion h
  · rw [if_neg hbound] at h
    by_cases hle : ((s.na + s.nb : ℕ) : ℚ) / ((s.da + s.db : ℕ) : ℚ) ≤ r
    · rw [if_pos hle] at h
      injection h with h2
      subst h2
      refine ⟨⟨?_, ?_, ?_⟩, ?_⟩
      · show s.nb * (s.da + s.db) = (s.na + s.nb) * s.db + 1
        calc s.nb * (s.da + s.db) = s.nb * s.da + s.nb * s.db := by ring
          _ = s.na * s.db + 1 + s.nb * s.db := by rw [hdet]
          _ = (s.na + s.nb) * s.db + 1 := by ring
      · show 1 ≤ s.da + s.db
        omega
      · show 1 ≤ s.db
        omega
      · show s.da + s.db + 1 ≤ s.da + s.db + s.db
        omega
    · rw [if_neg hle] at h
      injection h with h2
      subst h2
      refine ⟨⟨?_, ?_, ?_⟩, ?_⟩
      · show (s.na + s.nb) * s.da = s.na * (s.da + s.db) + 1
        calc (s.na + s.nb) * s.da = s.na * s.da + s.nb * s.da := by ring
          _ = s.na * s.da + (s.na * s.db + 1) := by rw [hdet]
          _ = s.na * (s.da + s.db) + 1 := by ring
      · show 1 ≤ s.da
        omega
      · show 1 ≤ s.da + s.db
        omega
      · show s.da + s.db + 1 ≤ s.da + (s.da + s.db)
        omega

theorem rsStep_exits (r : ℚ) (mn md : ℕ) (s : RSState)
    (hInv : RSInv s) (hbig : md < s.da + s.db) :
    ∃ res, rsStep r mn md s = Sum.inr res := by
  have hcop : Gcd (s.na + s.nb) (s.da + s.db) = 1 := by
    rw [Gcd_eq_gcd]
    exact rsStep_mediant_coprime s hInv
  refine ⟨s.factors, ?_⟩
  rw [rsStep]
  simp only [hcop, Nat.lt_irrefl, if_false]
  rw [if_pos (Or.inr hbig)]

theorem rsRun_isSome (r : ℚ) (mn md : ℕ) :
    ∀ fuel s, RSInv s → md + 1 ≤ s.da + s.db + fuel →
      (rsRun r mn md (fuel + 1) s).isSome = true := by
  intro fuel
  induction fuel with
  | zero =>
    intro s hInv hge
    obtain ⟨res, hres⟩ := rsStep_exits r mn md s hInv (by omega)
    rw [rsRun, hres]
    rfl
  | succ fuel ih =>
    intro s hInv hge
    cases h : rsStep r mn md s with
    | inr res =>
      rw [rsRun, h]
      rfl
    | inl s2 =>
      obtain ⟨hInv2, hsum⟩ := rsStep_inl_invariant r mn md s s2 hInv h
      rw [rsRun, h]
      exact ih s2 hInv2 (by omega)

/-- Claim C5, amended: for every positive ratio that is *not* an integer
(`floor < ceil`) and any bounds, the mediant loop terminates — it exits
within `maxDenominator + 1` iterations, returning the best candidate
recorded when a mediant first exceeds a bound.  (As stated, over all
positive ratios, the claim fails: on integer ratios within the bounds the
loop never exits; see the counterexample.) -/
theorem claim_C5_terminates (r : ℚ) (mn md : ℕ)
    (hr : 0 < r) (hni : ⌊r⌋ < ⌈r⌉) :
    (ComputeResampleFactors r mn md (md + 1)).isSome = true := by
  have hfl : (0 : ℤ) ≤ ⌊r⌋ := Int.floor_nonneg.2 hr.le
  have hkey : ∀ z : ℤ, (⌊((z : ℚ)) + 1 / 2⌋).toNat = z.toNat := by
    intro z
    rw [Int.floor_int_add, show ⌊(1 / 2 : ℚ)⌋ = 0 by norm_num, add_zero]
  have hceil : ⌈r⌉ = ⌊r⌋ + 1 := by
    have := Int.ceil_le_floor_add_one r
    omega
  have hInv0 : RSInv (rsInit r) := by
    refine ⟨?_, le_refl 1, le_refl 1⟩
    show (⌊((⌈r⌉ : ℚ)) + 1 / 2⌋).toNat * 1 = (⌊((⌊r⌋ : ℚ)) + 1 / 2⌋).toNat * 1 + 1
    rw [hkey, hkey, hceil]
    omega
  exact rsRun_isSome r mn md md (rsInit r) hInv0 (by simp [rsInit]; omega)

/-- Witness for claim C5 at the concrete ratio 5/2 with bounds 128/128. -/
theorem claim_C5_witness :
    (0 : ℚ) < 5 / 2 ∧ ⌊(5 / 2 : ℚ)⌋ < ⌈(5 / 2 : ℚ)⌉ ∧
      (ComputeResampleFactors (5 / 2) 128 128 129).isSome = true := by
  have h1 : (0 : ℚ) < 5 / 2 := by norm_num
  have h2 : ⌊(5 / 2 : ℚ)⌋ < ⌈(5 / 2 : ℚ)⌉ := by
    rw [show ⌊(5 / 2 : ℚ)⌋ = 2 by norm_num, Int.lt_ceil]
    norm_num
  exact ⟨h1, h2, claim_C5_terminates (5 / 2) 128 128 h1 h2⟩

/-! ## Window generation (dsp_window_functions.hpp:46-64, claim C9) -/

/-- Loop body of `WindowGenerator`: write `windowCoeffs[n]` and mirror it to
`windowCoeffs[nRev]` with `nRev = size - 1 - n`.  `size` is the length of
the vector, captured before the loop. -/
def wgBody {α : Type} (evalCoeff : ℕ → α) (size : ℕ) (w : List α) (n : ℕ) :
    List α :=
  (w.set n (evalCoeff n)).set (size - 1 - n) (evalCoeff n)

/-- Embedding of `WindowGenerator` (dsp_window_functions.hpp:46-64),
generic over the per-strategy coefficient evaluator (`evalCoeff n` models
`evalCoeff(n, sizeMinusOne)`, currying away the fixed second argument, and
over the element type, as in the C++ template): evaluate the first
`size >> 1` coefficients, mirror each to `size - 1 - n`, and evaluate the
middle coefficient directly when the size is odd. -/
def WindowGenerator {α : Type} (evalCoeff : ℕ → α) (windowCoeffs : List α) :
    List α :=
  let size := windowCoeffs.length
  let halfSize := size >>> 1
  let l1 := (List.range halfSize).foldl (wgBody evalCoeff size) windowCoeffs
  if size % 2 = 1 then l1.set halfSize (evalCoeff halfSize) else l1

/-- Embedding of `RectangleGenerator` (dsp_window_functions.hpp:414-426):
`std::fill` with the constant 1 (no symmetry/mirroring machinery). -/
def RectangleGenerator {α : Type} [One α] (windowCoeffs : List α) : List α :=
  windowCoeffs.map (fun _ => (1 : α))

theorem wgFold_length {α : Type} (f : ℕ → α) (size : ℕ) :
    ∀ (l : List ℕ) (w : List α),
      (l.foldl (wgBody f size) w).length = w.length := by
  intro l
  induction l with
  | nil => intro w; rfl
  | cons n l ih =>
    intro w
    rw [List.foldl_cons, ih, wgBody]
    simp

theorem getD_set_self {α : Type} (l : List α) (n : ℕ) (v d : α)
    (h : n < l.length) : (l.set n v).getD n d = v := by
  rw [List.getD_eq_getElem _ _ (by simpa using h)]
  simp [List.getElem_set, h]

theorem getD_set_other {α : Type} (l : List α) (n : ℕ) (v : α) (p : ℕ) (d : α)
    (h : p ≠ n) : (l.set n v).getD p d = l.getD p d := by
  simp [List.getD, List.getElem?_set_ne (Ne.symm h)]

theorem wgFold_getD {α : Type} (f : ℕ → α) (size : ℕ) (d : α) :
    ∀ (m : ℕ) (w : List α), w.length = size → 2 * m ≤ size →
      ∀ p, p < size →
        ((List.range m).foldl (wgBody f size) w).getD p d =
          if p < m then f p
          else if size - 1 - p < m then f (size - 1 - p)
          else w.getD p d := by
  intro m
  induction m with
  | zero =>
    intro w hw hm p hp
    simp
  | succ m ih =>
    intro w hw hm p hp
    rw [List.range_succ, List.foldl_append, List.foldl_cons, List.foldl_nil,
      wgBody]
    have hWlen : ((List.range m).foldl (wgBody f size) w).length = size := by
      rw [wgFold_length]
      exact hw
    have hrevlt : size - 1 - m < size := by omega
    have hmlt : m < size := by omega
    by_cases hpr : p = size - 1 - m
    · subst hpr
      rw [getD_set_self _ _ _ _ (by simp [hWlen]; omega)]
      have h1 : ¬ (size - 1 - m < m + 1) := by omega
      have h2 : size - 1 - (size - 1 - m) = m := by omega
      rw [if_neg h1, h2, if_pos (by omega)]
    · rw [getD_set_other _ _ _ _ _ hpr]
      by_cases hpm : p = m
      · subst hpm
        rw [getD_set_self _ _ _ _ (by omega)]
        rw [if_pos (by omega)]
      · rw [getD_set_other _ _ _ _ _ hpm]
        rw [ih w hw (by omega) p hp]
        have e1 : p < m ↔ p < m + 1 := by omega
        have e2 : size - 1 - p < m ↔ size - 1 - p < m + 1 := by omega
        rw [if_congr e1 rfl rfl]
        by_cases hc : p < m + 1
        · rw [if_pos hc, if_pos hc]
        · rw [if_neg hc, if_neg hc, if_congr e2 rfl rfl]

theorem shiftRight_one_eq_div_two (n : ℕ) : n >>> 1 = n / 2 := by
  rw [Nat.shiftRight_eq_div_pow, pow_one]

theorem WindowGenerator_length {α : Type} (f : ℕ → α) (w : List α) :
    (WindowGenerator f w).length = w.length := by
  simp only [WindowGenerator]
  by_cases hodd : w.length % 2 = 1
  · rw [if_pos hodd, List.length_set, wgFold_length]
  · rw [if_neg hodd, wgFold_length]

theorem WindowGenerator_getD {α : Type} (f : ℕ → α) (w : List α)
    (h2 : 2 ≤ w.length) (p : ℕ) (hp : p < w.length) (d : α) :
    (WindowGenerator f w).getD p d = f (min p (w.length - 1 - p)) := by
  simp only [WindowGenerator, shiftRight_one_eq_div_two]
  by_cases hodd : w.length % 2 = 1
  · rw [if_pos hodd]
    by_cases hmid : p = w.length / 2
    · rw [hmid, getD_set_self _ _ _ _ (by rw [wgFold_length]; omega)]
      congr 1
      omega
    · rw [getD_set_other _ _ _ _ _ hmid,
        wgFold_getD f w.length d (w.length / 2) w rfl (by omega) p hp]
      by_cases hlt : p < w.length / 2
      · rw [if_pos hlt]
        congr 1
        omega
      · rw [if_neg hlt, if_pos (by omega)]
        congr 1
        omega
  · rw [if_neg hodd,
      wgFold_getD f w.length d (w.length / 2) w rfl (by omega) p hp]
    by_cases hlt : p < w.length / 2
    · rw [if_pos hlt]
      congr 1
      omega
    · rw [if_neg hlt, if_pos (by omega)]
      congr 1
      omega

/-- Claim C9: for every window generation strategy of the family (the
generic mirroring generator with an arbitrary coefficient evaluator, as
used by Hann/Hamming/Bartlett/Blackman/FlatTop/Kaiser/Lanczos) and every
window size `N ≥ 2`, the generated sequence satisfies
`coefficient[n] = coefficient[N-1-n]` exactly (the second half is a mirror
copy of the first); `RectangleGenerator` (a plain fill with ones) is
trivially symmetric as well. -/
theorem claim_C9_window_symmetry :
    (∀ (α : Type) (evalCoeff : ℕ → α) (w : List α), 2 ≤ w.length →
      ∀ p q (hp : p < (WindowGenerator evalCoeff w).length)
        (hq : q < (WindowGenerator evalCoeff w).length),
        p + q = w.length - 1 →
        (WindowGenerator evalCoeff w).get ⟨p, hp⟩
          = (WindowGenerator evalCoeff w).get ⟨q, hq⟩)
    ∧ (∀ (α : Type) (inst : One α) (w : List α),
      ∀ p q (hp : p < (RectangleGenerator w).length)
        (hq : q < (RectangleGenerator w).length),
        p + q = w.length - 1 →
        (RectangleGenerator w).get ⟨p, hp⟩
          = (RectangleGenerator w).get ⟨q, hq⟩) := by
  constructor
  · intro α f w h2 p q hp hq hpq
    have hlen := WindowGenerator_length f w
    have hp2 : p < w.length := by rwa [hlen] at hp
    have hq2 : q < w.length := by rwa [hlen] at hq
    have e1 : (WindowGenerator f w).get ⟨p, hp⟩
        = (WindowGenerator f w).getD p (f 0) := by
      rw [List.getD_eq_getElem _ _ hp]
      rfl
    have e2 : (WindowGenerator f w).get ⟨q, hq⟩
        = (WindowGenerator f w).getD q (f 0) := by
      rw [List.getD_eq_getElem _ _ hq]
      rfl
    rw [e1, e2, WindowGenerator_getD f w h2 p hp2 (f 0),
      WindowGenerator_getD f w h2 q hq2 (f 0)]
    congr 1
    omega
  · intro α inst w p q hp hq hpq
    simp [RectangleGenerator]

/-- Witness for claim C9 at a concrete evaluator and window. -/
theorem claim_C9_witness :
    2 ≤ ([10, 20, 30] : List ℕ).length ∧
    0 + 2 = ([10, 20, 30] : List ℕ).length - 1 ∧
    (WindowGenerator (fun n => n) ([10, 20, 30] : List ℕ)).get ⟨0, by decide⟩
      = (WindowGenerator (fun n => n) ([10, 20, 30] : List ℕ)).get
          ⟨2, by decide⟩ :=
  ⟨by decide, by decide,
    claim_C9_window_symmetry.1 ℕ (fun n => n) [10, 20, 30] (by decide)
      0 2 (by decide) (by decide) (by decide)⟩

/-! ## WindowFunction construction and gains
(dsp_window_functions.hpp:618-822, claim C7) -/

/-- State of a constructed `WindowFunction<FloatType>`: the coefficient
vector, the stored `m_ignoreLastValue` flag, `m_effectiveSize` and the
three gains. -/
structure WindowFunctionState (α : Type) where
  windowCoefficients : List α
  ignoreLastFlag : Bool
  effectiveSize : ℕ
  coherentGain : α
  powerGain : α
  enbw : α

/-- Embedding of `WindowFunction::ComputeGains`
(dsp_window_functions.hpp:788-807): accumulate `Σc` and `Σc²` over the
first `EffectiveSize()` coefficients, scale the ENBW only when
`|Σc·Σc| > 1e-9`, then divide the coherent gain by the effective size and
form the power gain.  Returns `(coherentGain, powerGain, enbw)`. -/
def ComputeGains {α : Type} [LinearOrderedField α] (coeffs : List α)
    (effSize : ℕ) : α × α × α :=
  let sum := ∑ i ∈ Finset.range effSize, coeffs.getD i 0
  let sumSq := ∑ i ∈ Finset.range effSize, coeffs.getD i 0 * coeffs.getD i 0
  let enbwDivisor := sum * sum
  let enbw :=
    if 1 / 10 ^ 9 < |enbwDivisor| then ((effSize : α) * sumSq) / enbwDivisor
    else sumSq
  let coherentGain := sum / (effSize : α)
  (coherentGain, coherentGain * coherentGain * enbw, enbw)

/-- Embedding of the `WindowFunction` initialisation constructor
(dsp_window_functions.hpp:641-651) for a generator of the mirroring
family: the vector starts as `size` ones, the generator fills it,
`m_ignoreLastValue = ignoreLastValue && (size % 2 == 1)` but
`m_effectiveSize = ignoreLastValue ? size - 1 : size` uses the *raw*
argument, then `ComputeGains` runs over the effective size. -/
def WindowFunctionInit {α : Type} [LinearOrderedField α] (evalCoeff : ℕ → α)
    (size : ℕ) (ignoreLastValue : Bool) : WindowFunctionState α :=
  let coeffs := WindowGenerator evalCoeff (List.replicate size (1 : α))
  let effectiveSize := if ignoreLastValue then size - 1 else size
  let g := ComputeGains coeffs effectiveSize
  ⟨coeffs, ignoreLastValue && decide (size % 2 = 1), effectiveSize,
    g.1, g.2.1, g.2.2⟩

/-- Claim C7: evaluation at the failing input `size = 4` (even),
`ignoreLastValue = true`, generator evaluating `n+1` on the first half
(coefficient vector `[1, 2, 2, 1]`).  `m_effectiveSize` is derived from
the raw `ignoreLastValue` argument, not from the parity-guarded
`m_ignoreLastValue`, so the final coefficient is dropped even though the
size is even: `EffectiveSize()` is 3 (the claim requires 4) and the
coherent gain is the mean `5/3` of the first three coefficients rather
than the mean `3/2` of all four. -/
theorem claim_C7_even_size_eval :
    (WindowFunctionInit (fun n => if n = 0 then (1 : ℚ) else 2)
        4 true).windowCoefficients = [1, 2, 2, 1] ∧
    (WindowFunctionInit (fun n => if n = 0 then (1 : ℚ) else 2)
        4 true).ignoreLastFlag = false ∧
    (WindowFunctionInit (fun n => if n = 0 then (1 : ℚ) else 2)
        4 true).effectiveSize = 3 ∧
    (WindowFunctionInit (fun n => if n = 0 then (1 : ℚ) else 2)
        4 true).coherentGain = 5 / 3 ∧
    ((5 : ℚ) / 3 ≠ (1 + 2 + 2 + 1) / 4) := by
  refine ⟨rfl, rfl, rfl, ?_, by norm_num⟩
  show (∑ i ∈ Finset.range 3,
      (WindowGenerator (fun n => if n = 0 then (1 : ℚ) else 2)
        (List.replicate 4 1)).getD i 0) / ((3 : ℕ) : ℚ) = 5 / 3
  rw [show WindowGenerator (fun n => if n = 0 then (1 : ℚ) else 2)
      (List.replicate 4 1) = [1, 2, 2, 1] from rfl]
  rw [Finset.sum_range_succ, Finset.sum_range_succ, Finset.sum_range_succ,
    Finset.sum_range_zero]
  show ((0 : ℚ) + 1 + 2 + 2) / ((3 : ℕ) : ℚ) = 5 / 3
  norm_num

/-! ## Magnitude and power spectra (dsp_fft.hpp:172-201 and 245-265, claim C2)

The in-place loops are embedded functionally: the first loop processes the
first `halfSize` bins, the optional second loop zero-fills the remainder. -/

/-- Embedding of the in-place `ComplexFFT::ToMagnitude`
(dsp_fft.hpp:172-201): over the first `fullSpectrum ? N : N/2` bins, every
bin except the DC bin (iterator at `begin()`) is first multiplied by 2,
then the magnitude `|z|` is stored in the real component with the
imaginary part zeroed; when `zeroUnused` the remaining bins are set to 0,
otherwise they are left untouched. -/
noncomputable def ToMagnitude (cplxFft : List ℂ)
    (zeroUnused fullSpectrum : Bool) : List ℂ :=
  let halfSize := if fullSpectrum then cplxFft.length else cplxFft.length / 2
  (cplxFft.take halfSize).mapIdx (fun i z =>
    let z2 := if i = 0 then z else z * 2
    (⟨Complex.abs z2, 0⟩ : ℂ))
  ++ (cplxFft.drop halfSize).map (fun z => if zeroUnused then 0 else z)

/-- Embedding of the in-place `ComplexFFT::ToPower` (dsp_fft.hpp:245-265):
over the first `fullSpectrum ? N : N/2` bins the power `re² + im²`
(`std::norm`) is stored in the real component with the imaginary part
zeroed — no bin is doubled; when `zeroUnused` the remaining bins are set
to 0, otherwise they are left untouched. -/
noncomputable def ToPower (cplxFft : List ℂ) (zeroUnused fullSpectrum : Bool) :
    List ℂ :=
  let halfSize := if fullSpectrum then cplxFft.length else cplxFft.length / 2
  (cplxFft.take halfSize).map (fun z => (⟨Complex.normSq z, 0⟩ : ℂ))
  ++ (cplxFft.drop halfSize).map (fun z => if zeroUnused then 0 else z)

/-- Modelled from the spec for claim C2: `ToPower` with every bin except
DC doubled before the power value is extracted. -/
noncomputable def specToPowerDoubled (cplxFft : List ℂ)
    (zeroUnused fullSpectrum : Bool) : List ℂ :=
  let halfSize := if fullSpectrum then cplxFft.length else cplxFft.length / 2
  (cplxFft.take halfSize).mapIdx (fun i z =>
    let z2 := if i = 0 then z else z * 2
    (⟨Complex.normSq z2, 0⟩ : ℂ))
  ++ (cplxFft.drop halfSize).map (fun z => if zeroUnused then 0 else z)

theorem getD_append_left {α : Type} (xs ys : List α) (i : ℕ) (d : α)
    (h : i < xs.length) : (xs ++ ys).getD i d = xs.getD i d := by
  rw [List.getD_eq_getElem (xs ++ ys) d (by simp; omega),
    List.getD_eq_getElem xs d h, List.getElem_append_left]

theorem getD_append_right {α : Type} (xs ys : List α) (i : ℕ) (d : α)
    (h1 : xs.length ≤ i) (h2 : i < xs.length + ys.length) :
    (xs ++ ys).getD i d = ys.getD (i - xs.length) d := by
  rw [List.getD_eq_getElem (xs ++ ys) d (by simp; omega),
    List.getD_eq_getElem ys d (by omega), List.getElem_append_right h1]

theorem getD_map {α β : Type} (l : List α) (f : α → β) (i : ℕ) (d : β)
    (da : α) (h : i < l.length) : (l.map f).getD i d = f (l.getD i da) := by
  rw [List.getD_eq_getElem _ _ (by simp; omega), List.getD_eq_getElem _ _ h]
  simp

theorem getD_mapIdx {α β : Type} (l : List α) (f : ℕ → α → β) (i : ℕ) (d : β)
    (da : α) (h : i < l.length) :
    (l.mapIdx f).getD i d = f i (l.getD i da) := by
  rw [List.getD_eq_getElem _ _ (by rw [List.length_mapIdx]; omega),
    List.getD_eq_getElem _ _ h]
  have := List.get_mapIdx l f i h (by rw [List.length_mapIdx]; omega)
  simpa using this

theorem getD_take {α : Type} (l : List α) (k i : ℕ) (d : α) (h : i < k)
    (h2 : i < l.length) : (l.take k).getD i d = l.getD i d := by
  rw [List.getD_eq_getElem _ _ (by rw [List.length_take]; omega),
    List.getD_eq_getElem _ _ h2]
  simp [List.getElem_take]

theorem getD_drop {α : Type} (l : List α) (k i : ℕ) (d : α)
    (h : k + i < l.length) : (l.drop k).getD i d = l.getD (k + i) d := by
  rw [List.getD_eq_getElem _ _ (by rw [List.length_drop]; omega),
    List.getD_eq_getElem _ _ h]
  simp [List.getElem_drop]

theorem ToMagnitude_length (l : List ℂ) (zu fs : Bool) :
    (ToMagnitude l zu fs).length = l.length := by
  simp only [ToMagnitude]
  rw [List.length_append, List.length_mapIdx, List.length_take,
    List.length_map, List.length_drop]
  by_cases hfs : fs = true <;> simp [hfs] <;> omega

theorem ToPower_length (l : List ℂ) (zu fs : Bool) :
    (ToPower l zu fs).length = l.length := by
  simp only [ToPower]
  rw [List.length_append, List.length_map, List.length_take,
    List.length_map, List.length_drop]
  by_cases hfs : fs = true <;> simp [hfs] <;> omega

/-- Claim C2, amended: both conversions operate over the first
`fullSpectrum ? N : N/2` bins and store the result in the real component
with the imaginary part zeroed, and both zero-fill the remaining bins
exactly when `zeroUnused` is set; but only `ToMagnitude` doubles every
bin except DC before extracting the value — `ToPower` extracts
`re² + im²` of the undoubled bin. -/
theorem claim_C2_spectra_pointwise (l : List ℂ) (zu fs : Bool) (i : ℕ)
    (hi : i < l.length) :
    (ToMagnitude l zu fs).getD i 0 =
      (if i < (if fs then l.length else l.length / 2) then
        (⟨Complex.abs (if i = 0 then l.getD i 0 else l.getD i 0 * 2), 0⟩ : ℂ)
      else if zu then 0 else l.getD i 0) ∧
    (ToPower l zu fs).getD i 0 =
      (if i < (if fs then l.length else l.length / 2) then
        (⟨Complex.normSq (l.getD i 0), 0⟩ : ℂ)
      else if zu then 0 else l.getD i 0) := by
  have hhalf : (if fs then l.length else l.length / 2) ≤ l.length := by
    by_cases hfs : fs = true <;> simp [hfs] <;> omega
  set halfSize := if fs then l.length else l.length / 2 with hhs
  have htake : (l.take halfSize).length = halfSize := by
    rw [List.length_take]
    omega
  constructor
  · simp only [ToMagnitude]
    rw [← hhs]
    by_cases hlt : i < halfSize
    · rw [if_pos hlt,
        getD_append_left _ _ _ _ (by rw [List.length_mapIdx, htake]; omega),
        getD_mapIdx _ _ _ _ 0 (by omega)]
      have hget := getD_take l halfSize i (0 : ℂ) hlt hi
      simp only [hget]
    · rw [if_neg hlt,
        getD_append_right _ _ _ _ (by rw [List.length_mapIdx, htake]; omega)
          (by rw [List.length_mapIdx, htake, List.length_map,
                List.length_drop]; omega),
        List.length_mapIdx, htake,
        getD_map _ _ _ _ 0 (by rw [List.length_drop]; omega)]
      have hdrop := getD_drop l halfSize (i - halfSize) (0 : ℂ) (by omega)
      rw [show halfSize + (i - halfSize) = i from by omega] at hdrop
      simp only [hdrop]
  · simp only [ToPower]
    rw [← hhs]
    by_cases hlt : i < halfSize
    · rw [if_pos hlt,
        getD_append_left _ _ _ _ (by rw [List.length_map, htake]; omega),
        getD_map _ _ _ _ 0 (by omega)]
      have hget := getD_take l halfSize i (0 : ℂ) hlt hi
      simp only [hget]
    · rw [if_neg hlt,
        getD_append_right _ _ _ _ (by rw [List.length_map, htake]; omega)
          (by rw [List.length_map, htake, List.length_map,
                List.length_drop]; omega),
        List.length_map, htake,
        getD_map _ _ _ _ 0 (by rw [List.length_drop]; omega)]
      have hdrop := getD_drop l halfSize (i - halfSize) (0 : ℂ) (by omega)
      rw [show halfSize + (i - halfSize) = i from by omega] at hdrop
      simp only [hdrop]

/-- Witness for claim C2. -/
theorem claim_C2_witness :
    1 < ([⟨1, 0⟩, ⟨1, 0⟩] : List ℂ).length ∧
    (ToPower [⟨1, 0⟩, ⟨1, 0⟩] false true).getD 1 0 =
      (⟨Complex.normSq (([⟨1, 0⟩, ⟨1, 0⟩] : List ℂ).getD 1 0), 0⟩ : ℂ) := by
  refine ⟨by norm_num, ?_⟩
  have h := (claim_C2_spectra_pointwise [⟨1, 0⟩, ⟨1, 0⟩] false true 1
    (by norm_num)).2
  rwa [if_pos (by norm_num)] at h

/-- Counterexample for claim C2: on the buffer `[1, 1]` (full spectrum,
no zero-fill) `ToPower` leaves bin 1 at power `1`; doubling bin 1 before
the extraction, as the claim states, would give `4`. -/
theorem claim_C2_counterexample :
    (ToPower [⟨1, 0⟩, ⟨1, 0⟩] false true).getD 1 0 = (⟨1, 0⟩ : ℂ) ∧
    (specToPowerDoubled [⟨1, 0⟩, ⟨1, 0⟩] false true).getD 1 0 = (⟨4, 0⟩ : ℂ) ∧
    (ToPower [⟨1, 0⟩, ⟨1, 0⟩] false true).getD 1 0 ≠
      (specToPowerDoubled [⟨1, 0⟩, ⟨1, 0⟩] false true).getD 1 0 := by
  have h1 : (ToPower [⟨1, 0⟩, ⟨1, 0⟩] false true).getD 1 0 = (⟨1, 0⟩ : ℂ) := by
    rw [ToPower]
    norm_num [List.mapIdx, Complex.normSq_mk, Complex.ext_iff]
  have h2 : (specToPowerDoubled [⟨1, 0⟩, ⟨1, 0⟩] false true).getD 1 0
      = (⟨4, 0⟩ : ℂ) := by
    rw [specToPowerDoubled]
    norm_num [List.mapIdx, List.mapIdx.go, Complex.normSq_mk, Complex.ext_iff,
      Complex.mul_re, Complex.mul_im]
  refine ⟨h1, h2, ?_⟩
  rw [h1, h2]
  intro hcontra
  have := congrArg Complex.re hcontra
  norm_num at this

/-! ## The Cooley-Tukey FFT engine (dsp_fft.hpp:536-588)

The in-place complex vector is embedded as a total function `ℕ → ℂ`
(reads outside `[0, N)` never influence the first `N` cells for the
power-of-two sizes accepted by the library) together with its length;
each C++ `for` loop becomes a fold over its iteration count. -/

/-- Point update of the embedded buffer (`data[i] = v`). -/
def bset (d : ℕ → ℂ) (i : ℕ) (v : ℂ) : ℕ → ℂ :=
  fun j => if j = i then v else d j

/-- One butterfly (dsp_fft.hpp:558-562) at position `a` with offset `k`
and twiddle `T`:
`t = data[a] - data[b]; data[a] += data[b]; data[b] = t * T` with
`b = a + k`. -/
def butterfly (T : ℂ) (k : ℕ) (d : ℕ → ℂ) (a : ℕ) : ℕ → ℂ :=
  bset (bset d a (d a + d (a + k))) (a + k) ((d a - d (a + k)) * T)

/-- The inner loop `for (a = l; a < N; a += n)` (dsp_fft.hpp:556-563):
one butterfly per `a`; the iteration count is `⌈(N - l) / n⌉`. -/
def forAs (N n k : ℕ) (T : ℂ) (l : ℕ) (d : ℕ → ℂ) : ℕ → ℂ :=
  (List.range ((N - l + (n - 1)) / n)).foldl
    (fun d j => butterfly T k d (l + j * n)) d

/-- The middle loop `for (l = 0; l < k; ++l)` (dsp_fft.hpp:554-566) with
the running twiddle `T` starting at 1 and multiplied by `phiT` after each
iteration. -/
def forLs (N n k : ℕ) (phiT : ℂ) (d : ℕ → ℂ) : ℕ → ℂ :=
  ((List.range k).foldl
    (fun p l => (forAs N n k p.2 l p.1, p.2 * phiT)) (d, 1)).1

/-- The outer `while (k > 1)` loop (dsp_fft.hpp:548-567):
`n = k; k >>= 1; phiT = phiT * phiT;` then the middle loop. -/
def stages (N k : ℕ) (phiT : ℂ) (d : ℕ → ℂ) : ℕ → ℂ :=
  if 1 < k then
    stages N (k / 2) (phiT * phiT) (forLs N k (k / 2) (phiT * phiT) d)
  else d
termination_by k
decreasing_by
  exact Nat.div_lt_self (by omega) (by omega)

/-- The 32-bit bit-reversal mask trick (dsp_fft.hpp:576-581) on `uint32_t`
values; only the final `b << 16` can overflow 32 bits in C++, modelled by
the reduction `% 2^32`. -/
def rev32 (b0 : ℕ) : ℕ :=
  let b1 := ((b0 &&& 0xaaaaaaaa) >>> 1) ||| ((b0 &&& 0x55555555) <<< 1)
  let b2 := ((b1 &&& 0xcccccccc) >>> 2) ||| ((b1 &&& 0x33333333) <<< 2)
  let b3 := ((b2 &&& 0xf0f0f0f0) >>> 4) ||| ((b2 &&& 0x0f0f0f0f) <<< 4)
  let b4 := ((b3 &&& 0xff00ff00) >>> 8) ||| ((b3 &&& 0x00ff00ff) <<< 8)
  (b4 >>> 16) ||| ((b4 <<< 16) % 2 ^ 32)

/-- Swap of two buffer cells (`std::swap(data[a], data[b])`). -/
def swapAt (d : ℕ → ℂ) (a b : ℕ) : ℕ → ℂ :=
  fun j => if j = a then d b else if j = b then d a else d j

/-- The decimation loop (dsp_fft.hpp:570-587): for each `a < N` compute
the reversed index `b` (32-bit reversal shifted down to the transform's
bit width `m`) and swap when `b > a`. -/
def decimate (N m : ℕ) (d : ℕ → ℂ) : ℕ → ℂ :=
  (List.range N).foldl
    (fun d a =>
      let b := rev32 a >>> (32 - m)
      if a < b then swapAt d a b else d) d

/-- Embedding of `ComplexFFT::CooleyTukeyFFT` (dsp_fft.hpp:536-588):
`thetaT = pi / N`, `phiT = (cos thetaT, sin thetaT)`, the stage loop from
`k = N` down, then the bit-reversal decimation with `m = log2 N` (exact
for the power-of-two sizes the engine accepts). -/
noncomputable def CooleyTukeyFFT (data : List ℂ) : List ℂ :=
  let N := data.length
  let thetaT := Real.pi / N
  let phiT : ℂ := ⟨Real.cos thetaT, Real.sin thetaT⟩
  let res := decimate N (Nat.log2 N) (stages N N phiT (fun i => data.getD i 0))
  (List.range N).map res

/-- Embedding of the in-place `ComplexFFT::Forward` (dsp_fft.hpp:85-91):
the `DSP_ASSERT_THROW(IsPowerOf2(data.size()))` precondition runs before
`CooleyTukeyFFT`; a throw leaves the caller's buffer untouched, so the
failure case carries the unchanged buffer next to the error message. -/
noncomputable def Forward (data : List ℂ) : List ℂ × Option String :=
  if IsPowerOf2 data.length then (CooleyTukeyFFT data, none)
  else (data, some "FFT size not a power of 2")

/-- The conjugation lambda of `ComplexFFT::Inverse` (dsp_fft.hpp:136-143):
`z.imag(z.imag() * minusOne)` for every element. -/
def conjugateVec (l : List ℂ) : List ℂ :=
  l.map (fun z => (⟨z.re, z.im * (-1)⟩ : ℂ))

/-- Embedding of `ComplexFFT::Normalise` (dsp_fft.hpp:100-108): divide
every bin by `N = cplxFft.size()`. -/
noncomputable def Normalise (l : List ℂ) : List ℂ :=
  l.map (fun z => z / ((l.length : ℝ) : ℂ))

/-- Embedding of the in-place `ComplexFFT::Inverse` (dsp_fft.hpp:131-156):
check the power-of-two precondition, conjugate all bins, run the forward
`CooleyTukeyFFT`, conjugate again, then `Normalise`. -/
noncomputable def Inverse (data : List ℂ) : List ℂ × Option String :=
  if IsPowerOf2 data.length then
    (Normalise (conjugateVec (CooleyTukeyFFT (conjugateVec data))), none)
  else (data, some "FFT size not a power of 2")

/-- Claim C8: `Forward(buffer)` fails exactly when the length is not a
power of two (length 0 included), the check runs before any butterfly so
the buffer is unchanged on failure, and every power-of-two length
completes without error. -/
theorem claim_C8_forward_precondition (data : List ℂ) :
    ((Forward data).2.isSome = true ↔ ¬ ∃ k, data.length = 2 ^ k) ∧
    (data = [] → (Forward data).2.isSome = true) ∧
    (¬ (∃ k, data.length = 2 ^ k) → (Forward data).1 = data) ∧
    ((∃ k, data.length = 2 ^ k) → (Forward data).2 = none) := by
  by_cases hp : IsPowerOf2 data.length = true
  · have hex : ∃ k, data.length = 2 ^ k := (IsPowerOf2_iff _).1 hp
    refine ⟨?_, ?_, ?_, ?_⟩
    · rw [Forward, if_pos hp]
      simp [hex]
    · intro hnil
      subst hnil
      rw [IsPowerOf2] at hp
      simp at hp
    · intro hne
      exact absurd hex hne
    · intro _
      rw [Forward, if_pos hp]
  · have hnex : ¬ ∃ k, data.length = 2 ^ k := fun hex =>
      hp ((IsPowerOf2_iff _).2 hex)
    refine ⟨?_, ?_, ?_, ?_⟩
    · rw [Forward, if_neg hp]
      simp [hnex]
    · intro _
      rw [Forward, if_neg hp]
      rfl
    · intro _
      rw [Forward, if_neg hp]
    · intro hex
      exact absurd hex hnex

/-- Witness for claim C8 (the implications inside are hypotheses): at the
length-3 buffer the call fails and returns the untouched buffer. -/
theorem claim_C8_witness :
    (¬ ∃ k, ([⟨1, 0⟩, ⟨2, 0⟩, ⟨3, 0⟩] : List ℂ).length = 2 ^ k) ∧
    (Forward [⟨1, 0⟩, ⟨2, 0⟩, ⟨3, 0⟩]).1 = [⟨1, 0⟩, ⟨2, 0⟩, ⟨3, 0⟩] := by
  have hnex : ¬ ∃ k, ([⟨1, 0⟩, ⟨2, 0⟩, ⟨3, 0⟩] : List ℂ).length = 2 ^ k := by
    rw [show ([⟨1, 0⟩, ⟨2, 0⟩, ⟨3, 0⟩] : List ℂ).length = 3 from rfl,
      ← IsPowerOf2_iff]
    decide
  exact ⟨hnex,
    (claim_C8_forward_precondition [⟨1, 0⟩, ⟨2, 0⟩, ⟨3, 0⟩]).2.2.1 hnex⟩

/-! ## FftConvolve application and FilterHolder (claim C10) -/

theorem CooleyTukeyFFT_length (l : List ℂ) :
    (CooleyTukeyFFT l).length = l.length := by
  simp [CooleyTukeyFFT]

theorem conjugateVec_length (l : List ℂ) :
    (conjugateVec l).length = l.length := by
  simp [conjugateVec]

theorem Normalise_length (l : List ℂ) : (Normalise l).length = l.length := by
  simp [Normalise]

theorem Inverse_length (l : List ℂ) : ((Inverse l).1).length = l.length := by
  rw [Inverse]
  by_cases hp : IsPowerOf2 l.length = true
  · rw [if_pos hp]
    simp only [Normalise_length, conjugateVec_length, CooleyTukeyFFT_length]
  · rw [if_neg hp]

/-- Embedding of `FftConvolve::operator()` (dsp_fft.hpp:986-1045) on its
successful path (the constructor guarantees power-of-two workspaces, so
the `Forward`/`Inverse` preconditions hold): zero-pad both inputs into
complex workspaces of length `workspaceLength`, forward-transform both,
multiply pointwise with the explicit `crossMultiply` formula,
inverse-transform, and copy the real part of the first `discreteLength`
cells out. -/
noncomputable def FftConvolveRun (workspaceLength discreteLength : ℕ)
    (signal kernel : List ℝ) : List ℝ :=
  let ws1 := signal.map (fun x => (⟨x, 0⟩ : ℂ))
    ++ List.replicate (workspaceLength - signal.length) 0
  let ws2 := kernel.map (fun x => (⟨x, 0⟩ : ℂ))
    ++ List.replicate (workspaceLength - kernel.length) 0
  let f1 := CooleyTukeyFFT ws1
  let f2 := CooleyTukeyFFT ws2
  let prod := List.zipWith
    (fun x y => (⟨x.re * y.re - x.im * y.im, x.im * y.re + x.re * y.im⟩ : ℂ))
    f1 f2
  let inv := (Inverse prod).1
  (inv.take discreteLength).map (fun z => z.re)

theorem FftConvolveRun_length (W L : ℕ) (signal kernel : List ℝ)
    (hs : signal.length ≤ W) (hk : kernel.length ≤ W) (hL : L ≤ W) :
    (FftConvolveRun W L signal kernel).length = L := by
  simp only [FftConvolveRun]
  rw [List.length_map, List.length_take, Inverse_length, List.length_zipWith,
    CooleyTukeyFFT_length, CooleyTukeyFFT_length, List.length_append,
    List.length_append, List.length_map, List.length_map,
    List.length_replicate, List.length_replicate]
  omega

/-- Embedding of `FilterHolder::operator()` (dsp_filter.hpp:283-317).
`filteredSignal` is the incoming `m_filteredSignal` workspace (sized
`signalLength + tapCount - 1` by the constructor), `signal`/`result` the
caller's ranges.  The length check throws before anything is written;
on success the convolution (direct or FFT) is written into the workspace,
and only when `removeDelay` is set are `signalLen` samples starting at
`offset = (m_filteredSignal.size() - m_signalLength) >> 1` copied out to
the caller's result range.  Returns ((workspace, result), error). -/
noncomputable def FilterHolderApply (signalLength : ℕ)
    (filterCoeffs : List ℝ) (useFastConvolution : Bool)
    (filteredSignal signal result : List ℝ) (removeDelay : Bool) :
    (List ℝ × List ℝ) × Option String :=
  if signal.length = signalLength then
    let filtered :=
      if useFastConvolution then
        FftConvolveRun
          (FftConvolveWorkspaceLength signalLength filterCoeffs.length)
          (signalLength + filterCoeffs.length - 1) signal filterCoeffs
      else Convolve signal filterCoeffs
    if removeDelay then
      let offset := (filtered.length - signalLength) >>> 1
      ((filtered,
        (filtered.drop offset).take signal.length
          ++ result.drop signal.length), none)
    else ((filtered, result), none)
  else ((filteredSignal, result), some "signal sample range incorrect")

theorem FilterHolderApply_filtered_length (signalLength : ℕ)
    (coeffs : List ℝ) (useFast : Bool) (ws signal result : List ℝ)
    (rd : Bool) (hsig : signal.length = signalLength)
    (hcoeffs : coeffs ≠ []) (hN : 0 < signalLength) :
    ((FilterHolderApply signalLength coeffs useFast ws signal result rd).1.1).length
      = signalLength + coeffs.length - 1 := by
  have hM : 1 ≤ coeffs.length := List.length_pos.2 hcoeffs
  rw [FilterHolderApply, if_pos hsig]
  have hlen : (if useFast then
      FftConvolveRun (FftConvolveWorkspaceLength signalLength coeffs.length)
        (signalLength + coeffs.length - 1) signal coeffs
      else Convolve signal coeffs).length = signalLength + coeffs.length - 1 := by
    by_cases hf : useFast = true
    · rw [if_pos hf]
      have hbig : signalLength + coeffs.length - 1
          < FftConvolveWorkspaceLength signalLength coeffs.length :=
        (claim_C6_workspace_length signalLength coeffs.length hN hM).1
      simp only [FftConvolveDiscreteLength] at hbig
      exact FftConvolveRun_length _ _ _ _ (by omega) (by omega) (by omega)
    · rw [if_neg hf, Convolve_length]
      omega
  by_cases hrd : rd = true
  · rw [if_pos hrd]
    exact hlen
  · rw [if_neg hrd]
    exact hlen

/-- Claim C10: when `FilterHolder::operator()` is invoked with
`removeDelay == false` nothing is written through the caller's result
iterator — the convolution result lands only in the internal workspace
(this also holds on the length-check failure path); output is copied to
the result range only when `removeDelay == true`, taking the `N` samples
starting at offset `floor((tapCount-1)/2)` of the full convolution. -/
theorem claim_C10_filter_holder_frame (signalLength : ℕ) (coeffs : List ℝ)
    (useFast : Bool) (ws signal result : List ℝ) :
    ((FilterHolderApply signalLength coeffs useFast ws signal
        result false).1.2 = result) ∧
    (signal.length = signalLength → coeffs ≠ [] → 0 < signalLength →
      (FilterHolderApply signalLength coeffs useFast ws signal
          result true).1.2
        = (((FilterHolderApply signalLength coeffs useFast ws signal
              result true).1.1).drop ((coeffs.length - 1) / 2)).take
            signalLength
          ++ result.drop signalLength) := by
  constructor
  · rw [FilterHolderApply]
    by_cases hsig : signal.length = signalLength
    · rw [if_pos hsig]
      rfl
    · rw [if_neg hsig]
  · intro hsig hcoeffs hN
    have hflen := FilterHolderApply_filtered_length signalLength coeffs
      useFast ws signal result true hsig hcoeffs hN
    have hM : 1 ≤ coeffs.length := List.length_pos.2 hcoeffs
    rw [FilterHolderApply, if_pos hsig] at hflen ⊢
    rw [if_pos rfl] at hflen ⊢
    simp only at hflen ⊢
    rw [hflen, shiftRight_one_eq_div_two,
      show signalLength + coeffs.length - 1 - signalLength
        = coeffs.length - 1 from by omega, hsig]

/-- Witness for claim C10 (the removeDelay = true branch) at a concrete
direct-convolution filter. -/
theorem claim_C10_witness :
    ([1, 2, 3] : List ℝ).length = 3 ∧ ([1] : List ℝ) ≠ [] ∧ 0 < 3 ∧
    (FilterHolderApply 3 [1] false [0, 0, 0] [1, 2, 3] [0, 0, 0] true).1.2
      = (((FilterHolderApply 3 [1] false [0, 0, 0] [1, 2, 3]
            [0, 0, 0] true).1.1).drop ((([1] : List ℝ).length - 1) / 2)).take 3
        ++ ([0, 0, 0] : List ℝ).drop 3 :=
  ⟨rfl, by simp, by norm_num,
    (claim_C10_filter_holder_frame 3 [1] false [0, 0, 0] [1, 2, 3]
      [0, 0, 0]).2 rfl (by simp) (by norm_num)⟩

/-! ## Correctness of the 32-bit bit-reversal trick

`rev32` composes four masked pair/nibble/byte swaps and a 16-bit rotation;
each stage swaps bit `j` with bit `j xor s`.  The index bookkeeping is kept
in explicit functions so the composed effect (`j ↦ 31 - j`) can be checked
by finite decision. -/

/-- Index effect of one masked swap stage with shift `s` (`w = 2s`). -/
def stepIdx (s w j : ℕ) : ℕ := if j % w < s then j + s else j - s

/-- Index effect of the final 16-bit rotation. -/
def rotIdx (j : ℕ) : ℕ := if j < 16 then j + 16 else j - 16

theorem mask_bit_char (mask : ℕ) (f : ℕ → Bool) (hm : mask < 2 ^ 32)
    (hb : ∀ i, i < 32 → mask.testBit i = f i) (i : ℕ) :
    mask.testBit i = (decide (i < 32) && f i) := by
  by_cases h : i < 32
  · simp [h, hb i h]
  · have hfalse : mask.testBit i = false :=
      Nat.testBit_lt_two_pow
        (lt_of_lt_of_le hm (Nat.pow_le_pow_right (by norm_num) (by omega)))
    simp [h, hfalse]

theorem maskA_bit (i : ℕ) :
    (0xaaaaaaaa : ℕ).testBit i = (decide (i < 32) && decide (i % 2 = 1)) :=
  mask_bit_char 0xaaaaaaaa (fun i => decide (i % 2 = 1)) (by norm_num)
    (by decide) i

theorem mask5_bit (i : ℕ) :
    (0x55555555 : ℕ).testBit i = (decide (i < 32) && decide (i % 2 = 0)) :=
  mask_bit_char 0x55555555 (fun i => decide (i % 2 = 0)) (by norm_num)
    (by decide) i

theorem maskC_bit (i : ℕ) :
    (0xcccccccc : ℕ).testBit i = (decide (i < 32) && decide (2 ≤ i % 4)) :=
  mask_bit_char 0xcccccccc (fun i => decide (2 ≤ i % 4)) (by norm_num)
    (by decide) i

theorem mask3_bit (i : ℕ) :
    (0x33333333 : ℕ).testBit i = (decide (i < 32) && decide (i % 4 < 2)) :=
  mask_bit_char 0x33333333 (fun i => decide (i % 4 < 2)) (by norm_num)
    (by decide) i

theorem maskF0_bit (i : ℕ) :
    (0xf0f0f0f0 : ℕ).testBit i = (decide (i < 32) && decide (4 ≤ i % 8)) :=
  mask_bit_char 0xf0f0f0f0 (fun i => decide (4 ≤ i % 8)) (by norm_num)
    (by decide) i

theorem mask0F_bit (i : ℕ) :
    (0x0f0f0f0f : ℕ).testBit i = (decide (i < 32) && decide (i % 8 < 4)) :=
  mask_bit_char 0x0f0f0f0f (fun i => decide (i % 8 < 4)) (by norm_num)
    (by decide) i

theorem maskFF00_bit (i : ℕ) :
    (0xff00ff00 : ℕ).testBit i = (decide (i < 32) && decide (8 ≤ i % 16)) :=
  mask_bit_char 0xff00ff00 (fun i => decide (8 ≤ i % 16)) (by norm_num)
    (by decide) i

theorem mask00FF_bit (i : ℕ) :
    (0x00ff00ff : ℕ).testBit i = (decide (i < 32) && decide (i % 16 < 8)) :=
  mask_bit_char 0x00ff00ff (fun i => decide (i % 16 < 8)) (by norm_num)
    (by decide) i

theorem revStep1_testBit (x j : ℕ) (hj : j < 32) :
    (((x &&& 0xaaaaaaaa) >>> 1) ||| ((x &&& 0x55555555) <<< 1)).testBit j
      = x.testBit (stepIdx 1 2 j) := by
  rw [Bool.eq_iff_iff, stepIdx]
  simp only [Nat.testBit_or, Nat.testBit_shiftRight, Nat.testBit_shiftLeft,
    Nat.testBit_and, maskA_bit, mask5_bit, Bool.or_eq_true, Bool.and_eq_true,
    decide_eq_true_eq]
  by_cases hpar : j % 2 < 1
  · rw [if_pos hpar]
    constructor
    · rintro (⟨hbit, _⟩ | ⟨_, _, _, hmod⟩)
      · rwa [Nat.add_comm] at hbit
      · omega
    · intro hbit
      exact Or.inl ⟨by rwa [Nat.add_comm], by omega, by omega⟩
  · rw [if_neg hpar]
    constructor
    · rintro (⟨_, _, hmod⟩ | ⟨_, hbit, _⟩)
      · omega
      · exact hbit
    · intro hbit
      exact Or.inr ⟨by omega, hbit, by omega, by omega⟩

theorem revStep1_lt (x : ℕ) :
    ((x &&& 0xaaaaaaaa) >>> 1) ||| ((x &&& 0x55555555) <<< 1) < 2 ^ 32 := by
  apply Nat.lt_pow_two_of_testBit
  intro i hi
  rw [Bool.eq_false_iff]
  intro h
  simp only [Nat.testBit_or, Nat.testBit_shiftRight, Nat.testBit_shiftLeft,
    Nat.testBit_and, maskA_bit, mask5_bit, Bool.or_eq_true, Bool.and_eq_true,
    decide_eq_true_eq] at h
  rcases h with ⟨_, h2, _⟩ | ⟨_, _, h3, h4⟩ <;> omega

theorem revStep2_testBit (x j : ℕ) (hj : j < 32) :
    (((x &&& 0xcccccccc) >>> 2) ||| ((x &&& 0x33333333) <<< 2)).testBit j
      = x.testBit (stepIdx 2 4 j) := by
  rw [Bool.eq_iff_iff, stepIdx]
  simp only [Nat.testBit_or, Nat.testBit_shiftRight, Nat.testBit_shiftLeft,
    Nat.testBit_and, maskC_bit, mask3_bit, Bool.or_eq_true, Bool.and_eq_true,
    decide_eq_true_eq]
  by_cases hpar : j % 4 < 2
  · rw [if_pos hpar]
    constructor
    · rintro (⟨hbit, _⟩ | ⟨_, _, _, hmod⟩)
      · rwa [Nat.add_comm] at hbit
      · omega
    · intro hbit
      exact Or.inl ⟨by rwa [Nat.add_comm], by omega, by omega⟩
  · rw [if_neg hpar]
    constructor
    · rintro (⟨_, _, hmod⟩ | ⟨_, hbit, _⟩)
      · omega
      · exact hbit
    · intro hbit
      exact Or.inr ⟨by omega, hbit, by omega, by omega⟩

theorem revStep2_lt (x : ℕ) :
    ((x &&& 0xcccccccc) >>> 2) ||| ((x &&& 0x33333333) <<< 2) < 2 ^ 32 := by
  apply Nat.lt_pow_two_of_testBit
  intro i hi
  rw [Bool.eq_false_iff]
  intro h
  simp only [Nat.testBit_or, Nat.testBit_shiftRight, Nat.testBit_shiftLeft,
    Nat.testBit_and, maskC_bit, mask3_bit, Bool.or_eq_true, Bool.and_eq_true,
    decide_eq_true_eq] at h
  rcases h with ⟨_, h2, _⟩ | ⟨_, _, h3, h4⟩ <;> omega

theorem revStep4_testBit (x j : ℕ) (hj : j < 32) :
    (((x &&& 0xf0f0f0f0) >>> 4) ||| ((x &&& 0x0f0f0f0f) <<< 4)).testBit j
      = x.testBit (stepIdx 4 8 j) := by
  rw [Bool.eq_iff_iff, stepIdx]
  simp only [Nat.testBit_or, Nat.testBit_shiftRight, Nat.testBit_shiftLeft,
    Nat.testBit_and, maskF0_bit, mask0F_bit, Bool.or_eq_true,
    Bool.and_eq_true, decide_eq_true_eq]
  by_cases hpar : j % 8 < 4
  · rw [if_pos hpar]
    constructor
    · rintro (⟨hbit, _⟩ | ⟨_, _, _, hmod⟩)
      · rwa [Nat.add_comm] at hbit
      · omega
    · intro hbit
      exact Or.inl ⟨by rwa [Nat.add_comm], by omega, by omega⟩
  · rw [if_neg hpar]
    constructor
    · rintro (⟨_, _, hmod⟩ | ⟨_, hbit, _⟩)
      · omega
      · exact hbit
    · intro hbit
      exact Or.inr ⟨by omega, hbit, by omega, by omega⟩

theorem revStep4_lt (x : ℕ) :
    ((x &&& 0xf0f0f0f0) >>> 4) ||| ((x &&& 0x0f0f0f0f) <<< 4) < 2 ^ 32 := by
  apply Nat.lt_pow_two_of_testBit
  intro i hi
  rw [Bool.eq_false_iff]
  intro h
  simp only [Nat.testBit_or, Nat.testBit_shiftRight, Nat.testBit_shiftLeft,
    Nat.testBit_and, maskF0_bit, mask0F_bit, Bool.or_eq_true,
    Bool.and_eq_true, decide_eq_true_eq] at h
  rcases h with ⟨_, h2, _⟩ | ⟨_, _, h3, h4⟩ <;> omega

theorem revStep8_testBit (x j : ℕ) (hj : j < 32) :
    (((x &&& 0xff00ff00) >>> 8) ||| ((x &&& 0x00ff00ff) <<< 8)).testBit j
      = x.testBit (stepIdx 8 16 j) := by
  rw [Bool.eq_iff_iff, stepIdx]
  simp only [Nat.testBit_or, Nat.testBit_shiftRight, Nat.testBit_shiftLeft,
    Nat.testBit_and, maskFF00_bit, mask00FF_bit, Bool.or_eq_true,
    Bool.and_eq_true, decide_eq_true_eq]
  by_cases hpar : j % 16 < 8
  · rw [if_pos hpar]
    constructor
    · rintro (⟨hbit, _⟩ | ⟨_, _, _, hmod⟩)
      · rwa [Nat.add_comm] at hbit
      · omega
    · intro hbit
      exact Or.inl ⟨by rwa [Nat.add_comm], by omega, by omega⟩
  · rw [if_neg hpar]
    constructor
    · rintro (⟨_, _, hmod⟩ | ⟨_, hbit, _⟩)
      · omega
      · exact hbit
    · intro hbit
      exact Or.inr ⟨by omega, hbit, by omega, by omega⟩

theorem revStep8_lt (x : ℕ) :
    ((x &&& 0xff00ff00) >>> 8) ||| ((x &&& 0x00ff00ff) <<< 8) < 2 ^ 32 := by
  apply Nat.lt_pow_two_of_testBit
  intro i hi
  rw [Bool.eq_false_iff]
  intro h
  simp only [Nat.testBit_or, Nat.testBit_shiftRight, Nat.testBit_shiftLeft,
    Nat.testBit_and, maskFF00_bit, mask00FF_bit, Bool.or_eq_true,
    Bool.and_eq_true, decide_eq_true_eq] at h
  rcases h with ⟨_, h2, _⟩ | ⟨_, _, h3, h4⟩ <;> omega

theorem rot16_testBit (b j : ℕ) (hb : b < 2 ^ 32) (hj : j < 32) :
    ((b >>> 16) ||| ((b <<< 16) % 2 ^ 32)).testBit j
      = b.testBit (rotIdx j) := by
  rw [Bool.eq_iff_iff, rotIdx]
  simp only [Nat.testBit_or, Nat.testBit_shiftRight, Nat.testBit_mod_two_pow,
    Nat.testBit_shiftLeft, Bool.or_eq_true, Bool.and_eq_true,
    decide_eq_true_eq]
  by_cases hlt : j < 16
  · rw [if_pos hlt]
    constructor
    · rintro (hbit | ⟨_, h16, _⟩)
      · rwa [Nat.add_comm] at hbit
      · omega
    · intro hbit
      exact Or.inl (by rwa [Nat.add_comm])
  · rw [if_neg hlt]
    constructor
    · rintro (hbit | ⟨_, _, hbit⟩)
      · have hfalse : b.testBit (16 + j) = false :=
          Nat.testBit_lt_two_pow
            (lt_of_lt_of_le hb (Nat.pow_le_pow_right (by norm_num) (by omega)))
        rw [hfalse] at hbit
        exact absurd hbit (by simp)
      · exact hbit
    · intro hbit
      exact Or.inr ⟨by omega, by omega, hbit⟩

theorem rot16_lt (b : ℕ) (hb : b < 2 ^ 32) :
    (b >>> 16) ||| ((b <<< 16) % 2 ^ 32) < 2 ^ 32 := by
  apply Nat.lt_pow_two_of_testBit
  intro i hi
  rw [Bool.eq_false_iff]
  intro h
  simp only [Nat.testBit_or, Nat.testBit_shiftRight, Nat.testBit_mod_two_pow,
    Nat.testBit_shiftLeft, Bool.or_eq_true, Bool.and_eq_true,
    decide_eq_true_eq] at h
  rcases h with hbit | ⟨h2, _⟩
  · have hfalse : b.testBit (16 + i) = false :=
      Nat.testBit_lt_two_pow
        (lt_of_lt_of_le hb (Nat.pow_le_pow_right (by norm_num) (by omega)))
    rw [hfalse] at hbit
    exact absurd hbit (by simp)
  · omega

theorem rev32_testBit (a j : ℕ) (hj : j < 32) :
    (rev32 a).testBit j = a.testBit (31 - j) := by
  have hb4lt : ((((((a &&& 0xaaaaaaaa) >>> 1) ||| ((a &&& 0x55555555) <<< 1))
      &&& 0xcccccccc) >>> 2 |||
      ((((a &&& 0xaaaaaaaa) >>> 1) ||| ((a &&& 0x55555555) <<< 1))
      &&& 0x33333333) <<< 2) : ℕ) < 2 ^ 32 := revStep2_lt _
  have hrot : rotIdx j < 32 := by
    rw [rotIdx]
    split_ifs <;> omega
  have h8 : stepIdx 8 16 (rotIdx j) < 32 := by
    rw [stepIdx]
    split_ifs <;> omega
  have h4 : stepIdx 4 8 (stepIdx 8 16 (rotIdx j)) < 32 := by
    rw [stepIdx]
    split_ifs <;> omega
  have h2 : stepIdx 2 4 (stepIdx 4 8 (stepIdx 8 16 (rotIdx j))) < 32 := by
    rw [stepIdx]
    split_ifs <;> omega
  rw [rev32]
  rw [rot16_testBit _ j (revStep8_lt _) hj]
  rw [revStep8_testBit _ _ hrot]
  rw [revStep4_testBit _ _ h8]
  rw [revStep2_testBit _ _ h4]
  rw [revStep1_testBit _ _ h2]
  have hcomp : ∀ jj, jj < 32 →
      stepIdx 1 2 (stepIdx 2 4 (stepIdx 4 8 (stepIdx 8 16 (rotIdx jj))))
        = 31 - jj := by decide
  rw [hcomp j hj]

theorem rev32_lt (a : ℕ) : rev32 a < 2 ^ 32 := by
  rw [rev32]
  exact rot16_lt _ (revStep8_lt _)

/-- Mathematical `t`-bit reversal: the low bit of `i` becomes the top bit
of the result. -/
def bitRev : ℕ → ℕ → ℕ
  | 0, _ => 0
  | t + 1, i => if i < 2 ^ t then 2 * bitRev t i else 2 * bitRev t (i - 2 ^ t) + 1

theorem bitRev_lt (t i : ℕ) : bitRev t i < 2 ^ t := by
  induction t generalizing i with
  | zero =>
    rw [bitRev]
    norm_num
  | succ t ih =>
    rw [bitRev]
    by_cases h : i < 2 ^ t
    · rw [if_pos h, pow_succ]
      have := ih i
      omega
    · rw [if_neg h, pow_succ]
      have := ih (i - 2 ^ t)
      omega

theorem testBit_sub_two_pow (t i j : ℕ) (h1 : 2 ^ t ≤ i) (h2 : i < 2 ^ (t + 1))
    (hj : j < t) : (i - 2 ^ t).testBit j = i.testBit j := by
  have hb : i - 2 ^ t < 2 ^ t := by
    rw [pow_succ] at h2
    omega
  have hi : i = 2 ^ t * 1 + (i - 2 ^ t) := by omega
  conv_rhs => rw [hi]
  rw [Nat.testBit_mul_pow_two_add 1 hb j, if_pos hj]

theorem bitRev_testBit (t : ℕ) :
    ∀ i j, i < 2 ^ t → j < t → (bitRev t i).testBit j = i.testBit (t - 1 - j) := by
  induction t with
  | zero =>
    intro i j _ hj
    omega
  | succ t ih =>
    intro i j hi hj
    rw [bitRev]
    by_cases h : i < 2 ^ t
    · rw [if_pos h]
      have h2r : 2 * bitRev t i = 2 ^ 1 * bitRev t i + 0 := by ring
      rw [h2r, Nat.testBit_mul_pow_two_add _ (by norm_num) j]
      by_cases hj0 : j < 1
      · rw [if_pos hj0]
        have hj0e : j = 0 := by omega
        subst hj0e
        rw [show Nat.testBit 0 0 = false from rfl,
          show t + 1 - 1 - 0 = t from by omega,
          Nat.testBit_lt_two_pow h]
      · rw [if_neg hj0, ih i (j - 1) h (by omega),
          show t - 1 - (j - 1) = t + 1 - 1 - j from by omega]
    · rw [if_neg h]
      have h2r : 2 * bitRev t (i - 2 ^ t) + 1
          = 2 ^ 1 * bitRev t (i - 2 ^ t) + 1 := by ring
      rw [h2r, Nat.testBit_mul_pow_two_add _ (by norm_num) j]
      by_cases hj0 : j < 1
      · rw [if_pos hj0]
        have hj0e : j = 0 := by omega
        subst hj0e
        rw [show Nat.testBit 1 0 = true from rfl,
          show t + 1 - 1 - 0 = t from by omega]
        exact (testBit_of_between i t (by omega) hi).symm
      · rw [if_neg hj0, ih (i - 2 ^ t) (j - 1) (by rw [pow_succ] at hi; omega)
          (by omega),
          show t - 1 - (j - 1) = t + 1 - 1 - j from by omega,
          testBit_sub_two_pow t i (t + 1 - 1 - j) (by omega) hi (by omega)]

theorem bitRev_bitRev (t i : ℕ) (hi : i < 2 ^ t) :
    bitRev t (bitRev t i) = i := by
  apply Nat.eq_of_testBit_eq
  intro j
  by_cases hj : j < t
  · rw [bitRev_testBit t (bitRev t i) j (bitRev_lt t i) hj,
      bitRev_testBit t i (t - 1 - j) hi (by omega),
      show t - 1 - (t - 1 - j) = j from by omega]
  · rw [Nat.testBit_lt_two_pow
        (lt_of_lt_of_le (bitRev_lt t (bitRev t i))
          (Nat.pow_le_pow_right (by norm_num) (by omega))),
      Nat.testBit_lt_two_pow
        (lt_of_lt_of_le hi (Nat.pow_le_pow_right (by norm_num) (by omega)))]

/-- The code's reversed index `rev32 a >> (32 - m)` equals the
mathematical `m`-bit reversal, for `a < 2^m` and `m ≤ 32`. -/
theorem revIdx_eq_bitRev (m a : ℕ) (hm : m ≤ 32) (ha : a < 2 ^ m) :
    rev32 a >>> (32 - m) = bitRev m a := by
  have ha32 : a < 2 ^ 32 :=
    lt_of_lt_of_le ha (Nat.pow_le_pow_right (by norm_num) hm)
  apply Nat.eq_of_testBit_eq
  intro j
  rw [Nat.testBit_shiftRight]
  by_cases hj : j < m
  · rw [rev32_testBit a (32 - m + j) (by omega),
      show 31 - (32 - m + j) = m - 1 - j from by omega,
      bitRev_testBit m a j ha hj]
  · by_cases hj32 : 32 - m + j < 32
    · rw [rev32_testBit a (32 - m + j) hj32,
        Nat.testBit_lt_two_pow
          (lt_of_lt_of_le (bitRev_lt m a)
            (Nat.pow_le_pow_right (by norm_num) (by omega))),
        Nat.testBit_lt_two_pow
          (lt_of_lt_of_le ha (Nat.pow_le_pow_right (by norm_num) (by omega)))]
    · rw [Nat.testBit_lt_two_pow
          (lt_of_lt_of_le (rev32_lt a)
            (Nat.pow_le_pow_right (by norm_num) (by omega))),
        Nat.testBit_lt_two_pow
          (lt_of_lt_of_le (bitRev_lt m a)
            (Nat.pow_le_pow_right (by norm_num) (by omega)))]

/-- The reversed index computed inside the decimation loop. -/
def revIdx (m a : ℕ) : ℕ := rev32 a >>> (32 - m)

theorem swapFold_char (N : ℕ) (σ : ℕ → ℕ)
    (hσlt : ∀ i, i < N → σ i < N) (hσσ : ∀ i, i < N → σ (σ i) = i)
    (d : ℕ → ℂ) :
    ∀ c, c ≤ N → ∀ i,
      ((List.range c).foldl
        (fun d a => if a < σ a then swapAt d a (σ a) else d) d) i
      = if i < N ∧ min i (σ i) < c then d (σ i) else d i := by
  intro c
  induction c with
  | zero =>
    intro _ i
    simp
  | succ c ih =>
    intro hc i
    rw [List.range_succ, List.foldl_append, List.foldl_cons, List.foldl_nil]
    have hcN : c < N := by omega
    have hσc : σ c < N := hσlt c hcN
    have hσσc : σ (σ c) = c := hσσ c hcN
    have hne : ∀ iv, iv < N → iv ≠ c → iv ≠ σ c → min iv (σ iv) ≠ c := by
      intro iv hivN hic hiσ hmin
      rcases le_total iv (σ iv) with hle | hle
      · rw [min_eq_left hle] at hmin
        exact hic hmin
      · rw [min_eq_right hle] at hmin
        have hback : σ (σ iv) = iv := hσσ iv hivN
        rw [hmin] at hback
        exact hiσ hback.symm
    by_cases hswap : c < σ c
    · rw [if_pos hswap]
      show swapAt _ c (σ c) i = _
      rw [swapAt]
      by_cases hic : i = c
      · subst hic
        rw [if_pos rfl, ih (by omega) (σ i),
          if_neg (by rw [hσσc]; omega), if_pos (by omega)]
      · rw [if_neg hic]
        by_cases hiσ : i = σ c
        · subst hiσ
          rw [if_pos rfl, ih (by omega) c,
            if_neg (by omega), hσσc, if_pos (by omega)]
        · rw [if_neg hiσ, ih (by omega) i]
          by_cases hcond : i < N ∧ min i (σ i) < c + 1
          · have h0 : i < N ∧ min i (σ i) < c := by
              refine ⟨hcond.1, ?_⟩
              have := hne i hcond.1 hic hiσ
              omega
            rw [if_pos h0, if_pos hcond]
          · have h0 : ¬ (i < N ∧ min i (σ i) < c) := by
              rintro ⟨h1, h2⟩
              exact hcond ⟨h1, by omega⟩
            rw [if_neg h0, if_neg hcond]
    · rw [if_neg hswap, ih (by omega) i]
      have hσclec : σ c ≤ c := by omega
      by_cases hic : i = c
      · subst hic
        have hminr : min i (σ i) = σ i := min_eq_right hσclec
        by_cases heq : σ i = i
        · rw [if_neg (by rw [hminr, heq]; omega),
            if_pos (by rw [hminr, heq]; omega), heq]
        · have hσlt2 : σ i < i := by omega
          rw [if_pos ⟨hcN, by omega⟩, if_pos ⟨hcN, by omega⟩]
      · by_cases hiσ : i = σ c
        · subst hiσ
          have hσcltc : σ c < c := by
            rcases Nat.lt_or_ge (σ c) c with h | h
            · exact h
            · exact absurd (by omega : σ c = c) (fun he => hic he)
          rw [if_pos ⟨hσc, by rw [hσσc]; omega⟩,
            if_pos ⟨hσc, by rw [hσσc]; omega⟩]
        · by_cases hiN : i < N
          · have := hne i hiN hic hiσ
            by_cases hcond : i < N ∧ min i (σ i) < c + 1
            · rw [if_pos ⟨hcond.1, by omega⟩, if_pos hcond]
            · have h0 : ¬ (i < N ∧ min i (σ i) < c) := by
                rintro ⟨h1, h2⟩
                exact hcond ⟨h1, by omega⟩
              rw [if_neg h0, if_neg hcond]
          · rw [if_neg (by rintro ⟨h1, _⟩; exact hiN h1),
              if_neg (by rintro ⟨h1, _⟩; exact hiN h1)]

/-- The decimation pass applies the `m`-bit reversal permutation: for a
buffer of length `N = 2^m` (`m ≤ 32`), cell `i` of the result holds the
input cell `bitRev m i`. -/
theorem decimate_char (m : ℕ) (hm : m ≤ 32) (d : ℕ → ℂ) (i : ℕ)
    (hi : i < 2 ^ m) :
    decimate (2 ^ m) m d i = d (bitRev m i) := by
  have hσlt : ∀ a, a < 2 ^ m → revIdx m a < 2 ^ m := by
    intro a ha
    rw [revIdx, revIdx_eq_bitRev m a hm ha]
    exact bitRev_lt m a
  have hσσ : ∀ a, a < 2 ^ m → revIdx m (revIdx m a) = a := by
    intro a ha
    have h1 : revIdx m a = bitRev m a := by
      rw [revIdx]
      exact revIdx_eq_bitRev m a hm ha
    have h2 : revIdx m (bitRev m a) = bitRev m (bitRev m a) := by
      rw [revIdx]
      exact revIdx_eq_bitRev m (bitRev m a) hm (bitRev_lt m a)
    rw [h1, h2, bitRev_bitRev m a ha]
  have hbody : decimate (2 ^ m) m d
      = (List.range (2 ^ m)).foldl
          (fun d a => if a < revIdx m a then swapAt d a (revIdx m a) else d) d := by
    rw [decimate]
    rfl
  rw [hbody, swapFold_char (2 ^ m) (revIdx m) hσlt hσσ d (2 ^ m) le_rfl i,
    if_pos ⟨hi, lt_of_le_of_lt (min_le_left _ _) hi⟩, revIdx,
    revIdx_eq_bitRev m i hm hi]

/-! ## Characterising the butterfly loops -/

theorem add_mul_index_inj (n l q j : ℕ) (hn : 0 < n) (h : l + q * n = l + j * n) :
    q = j := by
  have h2 : q * n = j * n := by omega
  exact Nat.eq_of_mul_eq_mul_right hn h2

theorem add_mul_index_ne_shift (n k l q j : ℕ) (hk : 0 < k) (hkn : k < n) :
    l + j * n ≠ l + q * n + k := by
  intro h
  rcases Nat.lt_or_ge q j with hqj | hqj
  · have hsub : (j - q) * n = k := by
      rw [Nat.sub_mul]
      omega
    have hpos : 0 < j - q := by omega
    have : n ≤ (j - q) * n := Nat.le_mul_of_pos_left n hpos
    omega
  · have : j * n ≤ q * n := Nat.mul_le_mul_right n hqj
    omega

theorem lt_ceilDiv_iff (A n q : ℕ) (hn : 0 < n) :
    q < (A + (n - 1)) / n ↔ q * n < A := by
  rw [Nat.lt_iff_add_one_le, Nat.le_div_iff_mul_le hn, Nat.add_mul, one_mul]
  omega

theorem bset_same (d : ℕ → ℂ) (i : ℕ) (v : ℂ) : bset d i v i = v := by
  rw [bset]
  simp

theorem bset_other (d : ℕ → ℂ) (i : ℕ) (v : ℂ) (j : ℕ) (h : j ≠ i) :
    bset d i v j = d j := by
  rw [bset]
  simp [h]

theorem butterfly_at_a (T : ℂ) (k : ℕ) (d : ℕ → ℂ) (a : ℕ) (hk : 0 < k) :
    butterfly T k d a a = d a + d (a + k) := by
  rw [butterfly, bset_other _ _ _ _ (by omega), bset_same]

theorem butterfly_at_b (T : ℂ) (k : ℕ) (d : ℕ → ℂ) (a : ℕ) :
    butterfly T k d a (a + k) = (d a - d (a + k)) * T := by
  rw [butterfly, bset_same]

theorem butterfly_other (T : ℂ) (k : ℕ) (d : ℕ → ℂ) (a i : ℕ)
    (h1 : i ≠ a) (h2 : i ≠ a + k) : butterfly T k d a i = d i := by
  rw [butterfly, bset_other _ _ _ _ h2, bset_other _ _ _ _ h1]

theorem butterflyFold_char (T : ℂ) (n k l : ℕ) (hk : 0 < k) (hlk : l + k < n)
    (d : ℕ → ℂ) :
    ∀ j,
      (∀ q, q < j →
        ((List.range j).foldl (fun d jj => butterfly T k d (l + jj * n)) d)
            (l + q * n)
          = d (l + q * n) + d (l + q * n + k)) ∧
      (∀ q, q < j →
        ((List.range j).foldl (fun d jj => butterfly T k d (l + jj * n)) d)
            (l + q * n + k)
          = (d (l + q * n) - d (l + q * n + k)) * T) ∧
      (∀ i, (∀ q, q < j → i ≠ l + q * n ∧ i ≠ l + q * n + k) →
        ((List.range j).foldl (fun d jj => butterfly T k d (l + jj * n)) d) i
          = d i) := by
  intro j
  induction j with
  | zero =>
    refine ⟨?_, ?_, ?_⟩
    · intro q hq
      exact absurd hq (Nat.not_lt_zero q)
    · intro q hq
      exact absurd hq (Nat.not_lt_zero q)
    · intro i _
      rfl
  | succ j ih =>
    obtain ⟨ih1, ih2, ih3⟩ := ih
    have hkn : k < n := by omega
    have hne_a : ∀ q, q < j → l + j * n ≠ l + q * n ∧ l + j * n ≠ l + q * n + k := by
      intro q hq
      refine ⟨?_, add_mul_index_ne_shift n k l q j hk hkn⟩
      intro h
      have := add_mul_index_inj n l j q (by omega) h
      omega
    have hne_b : ∀ q, q < j →
        l + j * n + k ≠ l + q * n ∧ l + j * n + k ≠ l + q * n + k := by
      intro q hq
      constructor
      · intro h
        exact add_mul_index_ne_shift n k l j q hk hkn h.symm
      · intro h
        have h2 : l + j * n = l + q * n := by omega
        have := add_mul_index_inj n l j q (by omega) h2
        omega
    have hFa : ((List.range j).foldl (fun d jj => butterfly T k d (l + jj * n)) d)
        (l + j * n) = d (l + j * n) := ih3 _ hne_a
    have hFb : ((List.range j).foldl (fun d jj => butterfly T k d (l + jj * n)) d)
        (l + j * n + k) = d (l + j * n + k) := ih3 _ hne_b
    rw [List.range_succ, List.foldl_append, List.foldl_cons, List.foldl_nil]
    refine ⟨?_, ?_, ?_⟩
    · intro q hq
      by_cases hqj : q = j
      · subst hqj
        rw [butterfly_at_a _ _ _ _ hk, hFa, hFb]
      · have hq2 : q < j := by omega
        rw [butterfly_other _ _ _ _ _
            (fun h => (hne_a q hq2).1 h.symm)
            (fun h => (hne_b q hq2).1 h.symm),
          ih1 q hq2]
    · intro q hq
      by_cases hqj : q = j
      · subst hqj
        rw [butterfly_at_b, hFa, hFb]
      · have hq2 : q < j := by omega
        rw [butterfly_other _ _ _ _ _
            (fun h => (hne_a q hq2).2 h.symm)
            (fun h => (hne_b q hq2).2 h.symm),
          ih2 q hq2]
    · intro i hi
      have hij := hi j (by omega)
      rw [butterfly_other _ _ _ _ _ hij.1 hij.2,
        ih3 i (fun q hq => hi q (by omega))]

/-- Pointwise characterisation of the inner butterfly loop `forAs`. -/
theorem forAs_char (N n k l : ℕ) (T : ℂ) (d : ℕ → ℂ)
    (hk : 0 < k) (hlk : l + k < n) :
    (∀ q, q * n + l < N →
      forAs N n k T l d (l + q * n) = d (l + q * n) + d (l + q * n + k)) ∧
    (∀ q, q * n + l < N →
      forAs N n k T l d (l + q * n + k)
        = (d (l + q * n) - d (l + q * n + k)) * T) ∧
    (∀ i, (∀ q, q * n + l < N → i ≠ l + q * n ∧ i ≠ l + q * n + k) →
      forAs N n k T l d i = d i) := by
  have hn : 0 < n := by omega
  have hcnt : ∀ q, q < (N - l + (n - 1)) / n ↔ q * n + l < N := by
    intro q
    rw [lt_ceilDiv_iff (N - l) n q hn]
    omega
  obtain ⟨h1, h2, h3⟩ := butterflyFold_char T n k l hk hlk d ((N - l + (n - 1)) / n)
  refine ⟨?_, ?_, ?_⟩
  · intro q hq
    exact h1 q ((hcnt q).2 hq)
  · intro q hq
    exact h2 q ((hcnt q).2 hq)
  · intro i hi
    exact h3 i (fun q hq => hi q ((hcnt q).1 hq))

theorem mod_of_base_add (n c q : ℕ) (hc : c < n) : (c + q * n) % n = c := by
  rw [Nat.add_mul_mod_self_right, Nat.mod_eq_of_lt hc]

theorem mul_succ_le_of_dvd (n q N : ℕ) (hd : n ∣ N) (h : q * n < N) :
    (q + 1) * n ≤ N := by
  obtain ⟨t, rfl⟩ := hd
  have hq : q < t := by
    rcases Nat.lt_or_ge q t with h1 | h1
    · exact h1
    · exfalso
      have h2 : n * t ≤ n * q := Nat.mul_le_mul_left n h1
      have h3 : q * n = n * q := Nat.mul_comm q n
      omega
  have h2 : (q + 1) * n = n * (q + 1) := Nat.mul_comm _ _
  have h3 : n * (q + 1) ≤ n * t := Nat.mul_le_mul_left n hq
  omega

/-- Invariant of the middle loop fold: after `c` of the `k` iterations the
running twiddle is `phiT ^ c`, the butterfly has been applied at every
index whose residue mod `n` is below `c` (sum part) or in `[k, k + c)`
(difference part), and every other cell still holds its old value. -/
theorem forLsFold_char (N n k : ℕ) (φ : ℂ) (d : ℕ → ℂ)
    (hk : 0 < k) (hn : n = 2 * k) (hN : n ∣ N) :
    ∀ c, c ≤ k →
      ((List.range c).foldl
        (fun p l => (forAs N n k p.2 l p.1, p.2 * φ)) (d, 1)).2 = φ ^ c ∧
      (∀ i, i < N → i % n < c →
        ((List.range c).foldl
          (fun p l => (forAs N n k p.2 l p.1, p.2 * φ)) (d, 1)).1 i
          = d i + d (i + k)) ∧
      (∀ i, i < N → k ≤ i % n → i % n < k + c →
        ((List.range c).foldl
          (fun p l => (forAs N n k p.2 l p.1, p.2 * φ)) (d, 1)).1 i
          = (d (i - k) - d i) * φ ^ (i % n - k)) ∧
      (∀ i, N ≤ i ∨ (c ≤ i % n ∧ i % n < k) ∨ k + c ≤ i % n →
        ((List.range c).foldl
          (fun p l => (forAs N n k p.2 l p.1, p.2 * φ)) (d, 1)).1 i
          = d i) := by
  intro c
  induction c with
  | zero =>
    intro _
    refine ⟨pow_zero φ ▸ rfl, ?_, ?_, ?_⟩
    · intro i _ h
      exact absurd h (Nat.not_lt_zero _)
    · intro i _ h1 h2
      omega
    · intro i _
      rfl
  | succ c ih =>
    intro hc1
    have hck : c < k := by omega
    obtain ⟨ihs, ihA, ihB, ihC⟩ := ih (by omega)
    simp only [List.range_succ, List.foldl_append, List.foldl_cons, List.foldl_nil]
    rw [ihs]
    obtain ⟨fa1, fa2, fa3⟩ :=
      forAs_char N n k c (φ ^ c)
        ((List.range c).foldl
          (fun p l => (forAs N n k p.2 l p.1, p.2 * φ)) (d, 1)).1
        hk (by omega)
    refine ⟨by rw [pow_succ], ?_, ?_, ?_⟩
    · intro i hiN hmod
      by_cases hc : i % n = c
      · have hiq : c + i / n * n = i := by
          conv_rhs => rw [← Nat.mod_add_div' i n]
          rw [hc]
        have h1 := fa1 (i / n) (by omega)
        rw [hiq] at h1
        have hmodik : (i + k) % n = c + k := by
          rw [Nat.add_mod, hc, Nat.mod_eq_of_lt (show k < n by omega),
            Nat.mod_eq_of_lt (by omega)]
        rw [h1, ihC i (Or.inr (Or.inl ⟨by omega, by omega⟩)),
          ihC (i + k) (Or.inr (Or.inr (by omega)))]
      · have hne : ∀ q, q * n + c < N → i ≠ c + q * n ∧ i ≠ c + q * n + k := by
          intro q _
          have e1 : (c + q * n) % n = c := mod_of_base_add n c q (by omega)
          have e2 : (c + q * n + k) % n = c + k := by
            have e : c + q * n + k = (c + k) + q * n := by omega
            rw [e, mod_of_base_add n (c + k) q (by omega)]
          constructor
          · intro h
            exact hc (by rw [h, e1])
          · intro h
            have : i % n = c + k := by rw [h, e2]
            omega
        rw [fa3 i hne, ihA i hiN (by omega)]
    · intro i hiN hkle hmod
      by_cases hc : i % n = k + c
      · have hmle : i % n ≤ i := Nat.mod_le i n
        have hiq : c + i / n * n + k = i := by
          have h0 := Nat.mod_add_div' i n
          omega
        have h2 := fa2 (i / n) (by omega)
        have hmodik : (i - k) % n = c := by
          have e : i - k = c + i / n * n := by omega
          rw [e, mod_of_base_add n c (i / n) (by omega)]
        have hiq2 : c + i / n * n = i - k := by omega
        rw [hiq2, show i - k + k = i by omega] at h2
        have hexp : i % n - k = c := by omega
        rw [h2, ihC (i - k) (Or.inr (Or.inl ⟨by omega, by omega⟩)),
          ihC i (Or.inr (Or.inr (by omega))), hexp]
      · have hne : ∀ q, q * n + c < N → i ≠ c + q * n ∧ i ≠ c + q * n + k := by
          intro q _
          have e1 : (c + q * n) % n = c := mod_of_base_add n c q (by omega)
          have e2 : (c + q * n + k) % n = c + k := by
            have e : c + q * n + k = (c + k) + q * n := by omega
            rw [e, mod_of_base_add n (c + k) q (by omega)]
          constructor
          · intro h
            have : i % n = c := by rw [h, e1]
            omega
          · intro h
            have : i % n = c + k := by rw [h, e2]
            omega
        rw [fa3 i hne, ihB i hiN hkle (by omega)]
    · intro i hcond
      have hne : ∀ q, q * n + c < N → i ≠ c + q * n ∧ i ≠ c + q * n + k := by
        intro q hq
        rcases hcond with hNi | hmid | hhi
        · have hstep := mul_succ_le_of_dvd n q N hN (by omega)
          constructor
          · intro h
            omega
          · intro h
            have : c + q * n + k < N := by
              have : (q + 1) * n = q * n + n := by ring
              omega
            omega
        · have e1 : (c + q * n) % n = c := mod_of_base_add n c q (by omega)
          have e2 : (c + q * n + k) % n = c + k := by
            have e : c + q * n + k = (c + k) + q * n := by omega
            rw [e, mod_of_base_add n (c + k) q (by omega)]
          constructor
          · intro h
            have : i % n = c := by rw [h, e1]
            omega
          · intro h
            have : i % n = c + k := by rw [h, e2]
            omega
        · have e1 : (c + q * n) % n = c := mod_of_base_add n c q (by omega)
          have e2 : (c + q * n + k) % n = c + k := by
            have e : c + q * n + k = (c + k) + q * n := by omega
            rw [e, mod_of_base_add n (c + k) q (by omega)]
          constructor
          · intro h
            have : i % n = c := by rw [h, e1]
            omega
          · intro h
            have : i % n = c + k := by rw [h, e2]
            omega
      rw [fa3 i hne]
      rcases hcond with hNi | hmid | hhi
      · exact ihC i (Or.inl hNi)
      · exact ihC i (Or.inr (Or.inl ⟨by omega, hmid.2⟩))
      · exact ihC i (Or.inr (Or.inr (by omega)))

/-- Pointwise characterisation of one full stage of the Cooley-Tukey
`while (k > 1)` body: on the lower half of each block of width `n = 2k`
the cell becomes the sum with its partner `k` above, on the upper half the
difference times `phiT ^ (residue - k)`, and cells at or beyond `N` are
untouched. -/
theorem forLs_char (N n k : ℕ) (φ : ℂ) (d : ℕ → ℂ)
    (hk : 0 < k) (hn : n = 2 * k) (hN : n ∣ N) :
    (∀ i, i < N → i % n < k → forLs N n k φ d i = d i + d (i + k)) ∧
    (∀ i, i < N → k ≤ i % n →
      forLs N n k φ d i = (d (i - k) - d i) * φ ^ (i % n - k)) ∧
    (∀ i, N ≤ i → forLs N n k φ d i = d i) := by
  obtain ⟨-, hA, hB, hC⟩ := forLsFold_char N n k φ d hk hn hN k le_rfl
  refine ⟨fun i h1 h2 => ?_, fun i h1 h2 => ?_, fun i h => ?_⟩
  · rw [forLs]
    exact hA i h1 h2
  · rw [forLs]
    have : i % n < n := Nat.mod_lt i (by omega)
    exact hB i h1 h2 (by omega)
  · rw [forLs]
    exact hC i (Or.inl h)

/-- The result of the stage loop on a single block of size `2 ^ t`,
expressed recursively: one decimation-in-frequency butterfly (with the
squared twiddle, as the code squares `phiT` at the top of each stage
body) followed by independent half-size transforms of the two halves. -/
def difB : ℕ → ℂ → (ℕ → ℂ) → ℕ → ℂ
  | 0, _, x => x
  | t + 1, φ, x => fun i =>
    if i < 2 ^ t then
      difB t (φ * φ) (fun jj => x jj + x (jj + 2 ^ t)) i
    else
      difB t (φ * φ) (fun jj => (x jj - x (jj + 2 ^ t)) * (φ * φ) ^ jj) (i - 2 ^ t)

theorem difB_congr : ∀ (t : ℕ) (φ : ℂ) (x y : ℕ → ℂ),
    (∀ jj, jj < 2 ^ t → x jj = y jj) →
    ∀ r, r < 2 ^ t → difB t φ x r = difB t φ y r := by
  intro t
  induction t with
  | zero =>
    intro φ x y hxy r hr
    simp only [difB]
    exact hxy r hr
  | succ t ih =>
    intro φ x y hxy r hr
    have ht1 : 2 ^ (t + 1) = 2 * 2 ^ t := by ring
    simp only [difB]
    by_cases hlow : r < 2 ^ t
    · rw [if_pos hlow, if_pos hlow]
      refine ih (φ * φ) _ _ ?_ r hlow
      intro jj hjj
      rw [hxy jj (by omega), hxy (jj + 2 ^ t) (by omega)]
    · rw [if_neg hlow, if_neg hlow]
      refine ih (φ * φ) _ _ ?_ (r - 2 ^ t) (by omega)
      intro jj hjj
      rw [hxy jj (by omega), hxy (jj + 2 ^ t) (by omega)]

theorem stages_eq (N k : ℕ) (φ : ℂ) (d : ℕ → ℂ) :
    stages N k φ d =
      if 1 < k then
        stages N (k / 2) (φ * φ) (forLs N k (k / 2) (φ * φ) d)
      else d := by
  rw [stages]

/-- The stage loop of the FFT kernel, run from block size `2 ^ t` down,
acts independently on each aligned block of `2 ^ t` cells, computing
`difB` of that block; cells at or beyond the transform size are never
written. -/
theorem stages_char : ∀ t m : ℕ, t ≤ m → ∀ (φ : ℂ) (d : ℕ → ℂ),
    (∀ i, i < 2 ^ m →
      stages (2 ^ m) (2 ^ t) φ d i
        = difB t φ (fun jj => d (i / 2 ^ t * 2 ^ t + jj)) (i % 2 ^ t)) ∧
    (∀ i, 2 ^ m ≤ i → stages (2 ^ m) (2 ^ t) φ d i = d i) := by
  intro t
  induction t with
  | zero =>
    intro m _ φ d
    constructor
    · intro i _
      rw [stages_eq, if_neg (by norm_num)]
      simp only [difB, pow_zero, Nat.div_one, Nat.mod_one, mul_one, add_zero]
    · intro i _
      rw [stages_eq, if_neg (by norm_num)]
  | succ t ih =>
    intro m htm φ d
    have hk : (0 : ℕ) < 2 ^ t := Nat.pos_pow_of_pos t (by norm_num)
    have h2 : 1 < 2 ^ (t + 1) := by
      have : 2 ^ (t + 1) = 2 * 2 ^ t := by ring
      omega
    have hdiv2 : 2 ^ (t + 1) / 2 = 2 ^ t := by
      rw [pow_succ]
      exact Nat.mul_div_cancel _ (by norm_num)
    have hn2 : 2 ^ (t + 1) = 2 * 2 ^ t := by ring
    have hdvd : (2 : ℕ) ^ (t + 1) ∣ 2 ^ m := pow_dvd_pow 2 (by omega)
    obtain ⟨fA, fB, fC⟩ :=
      forLs_char (2 ^ m) (2 ^ (t + 1)) (2 ^ t) (φ * φ) d hk hn2 hdvd
    obtain ⟨ih1, ih2⟩ :=
      ih m (by omega) (φ * φ) (forLs (2 ^ m) (2 ^ (t + 1)) (2 ^ t) (φ * φ) d)
    constructor
    · intro i hiN
      have hBr := Nat.div_add_mod' i (2 ^ (t + 1))
      have hr : i % 2 ^ (t + 1) < 2 ^ (t + 1) := Nat.mod_lt i (by omega)
      have hBN : i / 2 ^ (t + 1) * 2 ^ (t + 1) + 2 ^ (t + 1) ≤ 2 ^ m := by
        have hstep := mul_succ_le_of_dvd (2 ^ (t + 1)) (i / 2 ^ (t + 1))
          (2 ^ m) hdvd (by omega)
        have he : (i / 2 ^ (t + 1) + 1) * 2 ^ (t + 1)
            = i / 2 ^ (t + 1) * 2 ^ (t + 1) + 2 ^ (t + 1) := by ring
        omega
      have hmod2t : i % 2 ^ t = i % 2 ^ (t + 1) % 2 ^ t :=
        (Nat.mod_mod_of_dvd i (pow_dvd_pow 2 (Nat.le_succ t))).symm
      rw [stages_eq, if_pos h2, hdiv2, ih1 i hiN]
      simp only [difB]
      by_cases hlow : i % 2 ^ (t + 1) < 2 ^ t
      · rw [if_pos hlow]
        have him : i % 2 ^ t = i % 2 ^ (t + 1) := by
          rw [hmod2t, Nat.mod_eq_of_lt hlow]
        have hdivt : i / 2 ^ t * 2 ^ t = i / 2 ^ (t + 1) * 2 ^ (t + 1) := by
          have h0 := Nat.div_add_mod' i (2 ^ t)
          omega
        rw [him, hdivt]
        refine difB_congr t (φ * φ) _ _ ?_ (i % 2 ^ (t + 1)) hlow
        intro jj hjj
        have hp : i / 2 ^ (t + 1) * 2 ^ (t + 1) + jj < 2 ^ m := by omega
        have hpm : (i / 2 ^ (t + 1) * 2 ^ (t + 1) + jj) % 2 ^ (t + 1) = jj := by
          rw [Nat.add_comm, Nat.add_mul_mod_self_right,
            Nat.mod_eq_of_lt (by omega)]
        rw [fA _ hp (by omega)]
        have ha : i / 2 ^ (t + 1) * 2 ^ (t + 1) + jj + 2 ^ t
            = i / 2 ^ (t + 1) * 2 ^ (t + 1) + (jj + 2 ^ t) := by omega
        rw [ha]
      · rw [if_neg hlow]
        have hrk : 2 ^ t ≤ i % 2 ^ (t + 1) := by omega
        have him : i % 2 ^ t = i % 2 ^ (t + 1) - 2 ^ t := by
          rw [hmod2t, Nat.mod_eq_sub_mod hrk, Nat.mod_eq_of_lt (by omega)]
        have hdivt : i / 2 ^ t * 2 ^ t
            = i / 2 ^ (t + 1) * 2 ^ (t + 1) + 2 ^ t := by
          have h0 := Nat.div_add_mod' i (2 ^ t)
          omega
        rw [him, hdivt]
        refine difB_congr t (φ * φ) _ _ ?_ (i % 2 ^ (t + 1) - 2 ^ t) (by omega)
        intro jj hjj
        have hp : i / 2 ^ (t + 1) * 2 ^ (t + 1) + 2 ^ t + jj < 2 ^ m := by omega
        have hpm : (i / 2 ^ (t + 1) * 2 ^ (t + 1) + 2 ^ t + jj) % 2 ^ (t + 1)
            = 2 ^ t + jj := by
          have he : i / 2 ^ (t + 1) * 2 ^ (t + 1) + 2 ^ t + jj
              = (2 ^ t + jj) + i / 2 ^ (t + 1) * 2 ^ (t + 1) := by omega
          rw [he, Nat.add_mul_mod_self_right, Nat.mod_eq_of_lt (by omega)]
        rw [fB _ hp (by omega)]
        have ha : i / 2 ^ (t + 1) * 2 ^ (t + 1) + 2 ^ t + jj - 2 ^ t
            = i / 2 ^ (t + 1) * 2 ^ (t + 1) + jj := by omega
        have hb : i / 2 ^ (t + 1) * 2 ^ (t + 1) + jj + 2 ^ t
            = i / 2 ^ (t + 1) * 2 ^ (t + 1) + (jj + 2 ^ t) := by omega
        have hc : (i / 2 ^ (t + 1) * 2 ^ (t + 1) + 2 ^ t + jj) % 2 ^ (t + 1)
            - 2 ^ t = jj := by omega
        have hd : i / 2 ^ (t + 1) * 2 ^ (t + 1) + 2 ^ t + jj
            = i / 2 ^ (t + 1) * 2 ^ (t + 1) + jj + 2 ^ t := by omega
        rw [ha, hc, ← hb, hd]
    · intro i hiN
      rw [stages_eq, if_pos h2, hdiv2, ih2 i hiN, fC i hiN]

/-- The discrete Fourier transform of size `2 ^ t` with kernel `ω`:
output bin `s` is the sum of `ω ^ (s * j) * x j` over the block. -/
noncomputable def dft (t : ℕ) (ω : ℂ) (x : ℕ → ℂ) (s : ℕ) : ℂ :=
  ∑ j ∈ Finset.range (2 ^ t), ω ^ (s * j) * x j

theorem sum_range_add_split (k : ℕ) (f : ℕ → ℂ) :
    ∑ j ∈ Finset.range (k + k), f j
      = (∑ j ∈ Finset.range k, f j) + ∑ j ∈ Finset.range k, f (k + j) := by
  rw [Finset.range_eq_Ico,
    ← Finset.sum_Ico_consecutive f (Nat.zero_le k) (by omega : k ≤ k + k)]
  simp only [Finset.sum_Ico_eq_sum_range, Nat.sub_zero, Nat.zero_add,
    Nat.add_sub_cancel]

theorem dft_split_even (t : ℕ) (Ω : ℂ) (x : ℕ → ℂ) (s : ℕ)
    (hΩ : Ω ^ 2 ^ t = -1) :
    dft (t + 1) Ω x (2 * s)
      = dft t (Ω * Ω) (fun jj => x jj + x (jj + 2 ^ t)) s := by
  rw [dft, dft, show (2 : ℕ) ^ (t + 1) = 2 ^ t + 2 ^ t by ring,
    sum_range_add_split]
  simp only [mul_add, Finset.sum_add_distrib]
  congr 1
  · refine Finset.sum_congr rfl ?_
    intro j _
    congr 1
    ring
  · refine Finset.sum_congr rfl ?_
    intro j _
    have hx : 2 ^ t + j = j + 2 ^ t := by omega
    rw [hx]
    congr 1
    have h1 : Ω ^ (2 * s * 2 ^ t) = 1 := by
      rw [show 2 * s * 2 ^ t = 2 ^ t * (2 * s) by ring, pow_mul, hΩ, pow_mul]
      norm_num
    rw [pow_add, h1, one_mul, ← pow_two, ← pow_mul]
    congr 1
    ring

theorem dft_split_odd (t : ℕ) (Ω : ℂ) (x : ℕ → ℂ) (s : ℕ)
    (hΩ : Ω ^ 2 ^ t = -1) :
    dft (t + 1) Ω x (2 * s + 1)
      = dft t (Ω * Ω) (fun jj => (x jj - x (jj + 2 ^ t)) * Ω ^ jj) s := by
  rw [dft, dft, show (2 : ℕ) ^ (t + 1) = 2 ^ t + 2 ^ t by ring,
    sum_range_add_split]
  simp only [sub_mul, mul_sub, Finset.sum_sub_distrib]
  rw [sub_eq_add_neg, ← Finset.sum_neg_distrib]
  congr 1
  · refine Finset.sum_congr rfl ?_
    intro j _
    ring
  · refine Finset.sum_congr rfl ?_
    intro j _
    have hx : 2 ^ t + j = j + 2 ^ t := by omega
    rw [hx]
    have he : (2 * s + 1) * (j + 2 ^ t)
        = 2 ^ t * (2 * s) + 2 ^ t + (2 * (s * j) + j) := by ring
    rw [he, pow_add, pow_add, pow_mul, hΩ]
    have hm1 : ((-1 : ℂ)) ^ (2 * s) = 1 := by
      rw [pow_mul]
      norm_num
    rw [hm1, one_mul]
    ring

/-- The recursive butterfly network `difB` computes the size-`2 ^ t` DFT
with kernel `phi ^ 2` and bit-reversed output order, provided the kernel's
half-power is `-1` (true for the roots of unity the code feeds it). -/
theorem difB_dft : ∀ (t : ℕ) (φ : ℂ) (x : ℕ → ℂ),
    (t = 0 ∨ (φ * φ) ^ 2 ^ (t - 1) = -1) →
    ∀ i, i < 2 ^ t → difB t φ x i = dft t (φ * φ) x (bitRev t i) := by
  intro t
  induction t with
  | zero =>
    intro φ x _ i hi
    have hi0 : i = 0 := by omega
    subst hi0
    simp only [difB, bitRev, dft, pow_zero, Finset.range_one,
      Finset.sum_singleton, Nat.mul_zero, one_mul]
  | succ t ih =>
    intro φ x hroot i hi
    have hΩ : (φ * φ) ^ 2 ^ t = -1 := by
      rcases hroot with h0 | h
      · exact absurd h0 (Nat.succ_ne_zero t)
      · simpa using h
    have hrec : t = 0 ∨ ((φ * φ) * (φ * φ)) ^ 2 ^ (t - 1) = -1 := by
      rcases Nat.eq_zero_or_pos t with h0 | hpos
      · exact Or.inl h0
      · right
        have he : ((φ * φ) * (φ * φ)) ^ 2 ^ (t - 1)
            = (φ * φ) ^ (2 * 2 ^ (t - 1)) := by
          rw [mul_comm 2 (2 ^ (t - 1)), pow_mul, pow_two, mul_pow]
        rw [he, show 2 * 2 ^ (t - 1) = 2 ^ t by
          rw [← pow_succ']
          congr 1
          omega]
        exact hΩ
    simp only [difB, bitRev]
    by_cases hlow : i < 2 ^ t
    · rw [if_pos hlow, if_pos hlow,
        ih (φ * φ) _ hrec i hlow, dft_split_even t (φ * φ) x _ hΩ]
    · rw [if_neg hlow, if_neg hlow,
        ih (φ * φ) _ hrec (i - 2 ^ t) (by
          have : (2 : ℕ) ^ (t + 1) = 2 ^ t + 2 ^ t := by ring
          omega),
        dft_split_odd t (φ * φ) x _ hΩ]

/-! ## Assembling the forward transform and the inverse round trip -/

theorem getD_map_range (N : ℕ) (f : ℕ → ℂ) (s : ℕ) (hs : s < N) :
    ((List.range N).map f).getD s 0 = f s := by
  rw [List.getD_eq_getElem _ _ (by simp [hs])]
  simp [hs]

theorem mk_cos_sin_eq_exp (θ : ℝ) :
    (⟨Real.cos θ, Real.sin θ⟩ : ℂ) = Complex.exp (θ * Complex.I) := by
  rw [Complex.exp_mul_I]
  apply Complex.ext
  · simp [Complex.cos_ofReal_re, Complex.sin_ofReal_re]
  · simp [Complex.cos_ofReal_re, Complex.sin_ofReal_re]

/-- The per-block butterfly network started from the code's twiddle
`phiT = (cos(pi/N), sin(pi/N))` computes the DFT with the positive-sign
kernel `exp(2*pi*I/N)` in bit-reversed output order. -/
theorem difB_eq_dft_exp (m : ℕ) (x : ℕ → ℂ) (i : ℕ) (hi : i < 2 ^ m) :
    difB m (⟨Real.cos (Real.pi / ((2 ^ m : ℕ) : ℝ)),
             Real.sin (Real.pi / ((2 ^ m : ℕ) : ℝ))⟩ : ℂ) x i
      = dft m (Complex.exp (2 * (Real.pi : ℂ) * Complex.I / ((2 ^ m : ℕ) : ℂ)))
          x (bitRev m i) := by
  have hN0 : (2 : ℕ) ^ m ≠ 0 := by positivity
  have hNc : ((2 ^ m : ℕ) : ℂ) ≠ 0 := Nat.cast_ne_zero.mpr hN0
  rw [mk_cos_sin_eq_exp]
  set φ := Complex.exp (((Real.pi / ((2 ^ m : ℕ) : ℝ) : ℝ) : ℂ) * Complex.I)
    with hφdef
  have hφpow : φ ^ (2 ^ m) = -1 := by
    rw [hφdef, ← Complex.exp_nat_mul]
    have he : ((2 ^ m : ℕ) : ℂ)
        * (((Real.pi / ((2 ^ m : ℕ) : ℝ) : ℝ) : ℂ) * Complex.I)
        = (Real.pi : ℂ) * Complex.I := by
      push_cast
      field_simp
    rw [he, Complex.exp_pi_mul_I]
  have hω : φ * φ
      = Complex.exp (2 * (Real.pi : ℂ) * Complex.I / ((2 ^ m : ℕ) : ℂ)) := by
    rw [hφdef, ← Complex.exp_add]
    congr 1
    push_cast
    ring
  have hroot : m = 0 ∨ (φ * φ) ^ 2 ^ (m - 1) = -1 := by
    rcases Nat.eq_zero_or_pos m with h0 | hpos
    · exact Or.inl h0
    · right
      have he : (φ * φ) ^ 2 ^ (m - 1) = φ ^ (2 * 2 ^ (m - 1)) := by
        rw [mul_comm 2 (2 ^ (m - 1)), pow_mul, pow_two, mul_pow]
      rw [he, show 2 * 2 ^ (m - 1) = 2 ^ m by
        rw [← pow_succ']
        congr 1
        omega]
      exact hφpow
  rw [difB_dft m φ x hroot i hi, hω]

/-- `CooleyTukeyFFT` on a length-`2 ^ m` buffer (`m ≤ 32`) computes the
DFT with kernel `exp(2*pi*I/N)`: output bin `s` is
`sum_j exp(2*pi*I/N)^(s*j) * x_j`. -/
theorem CooleyTukeyFFT_dft (m : ℕ) (hm : m ≤ 32) (data : List ℂ)
    (hlen : data.length = 2 ^ m) (s : ℕ) (hs : s < 2 ^ m) :
    (CooleyTukeyFFT data).getD s 0
      = dft m (Complex.exp (2 * (Real.pi : ℂ) * Complex.I / ((2 ^ m : ℕ) : ℂ)))
          (fun j => data.getD j 0) s := by
  have hlog : Nat.log2 (2 ^ m) = m := by
    rw [Nat.log2_eq_log_two]
    exact Nat.log_pow (by norm_num) m
  have hb : bitRev m s < 2 ^ m := bitRev_lt m s
  simp only [CooleyTukeyFFT, hlen]
  rw [hlog, getD_map_range _ _ s hs, decimate_char m hm _ s hs,
    (stages_char m m le_rfl _ _).1 (bitRev m s) hb,
    Nat.mod_eq_of_lt hb]
  simp only [Nat.div_eq_of_lt hb, Nat.zero_mul, Nat.zero_add]
  rw [difB_eq_dft_exp m _ (bitRev m s) hb, bitRev_bitRev m s hs]

theorem conjugateVec_getD (l : List ℂ) (s : ℕ) (h : s < l.length) :
    (conjugateVec l).getD s 0 = (starRingEnd ℂ) (l.getD s 0) := by
  rw [conjugateVec, getD_map l _ s 0 0 h]
  apply Complex.ext
  · simp
  · simp

theorem Normalise_getD (l : List ℂ) (s : ℕ) (h : s < l.length) :
    (Normalise l).getD s 0 = l.getD s 0 / ((l.length : ℝ) : ℂ) := by
  rw [Normalise, getD_map l _ s 0 0 h]

/-- Orthogonality of the FFT kernel: summing
`conj(omega)^(s*j) * omega^(j*u)` over a full period picks out `u = s`. -/
theorem kernel_orth (N : ℕ) (hN : N ≠ 0) (s u : ℕ) (hs : s < N) (hu : u < N) :
    ∑ j ∈ Finset.range N,
      ((starRingEnd ℂ) (Complex.exp (2 * (Real.pi : ℂ) * Complex.I / (N : ℂ))))
          ^ (s * j)
        * (Complex.exp (2 * (Real.pi : ℂ) * Complex.I / (N : ℂ))) ^ (j * u)
      = if u = s then (N : ℂ) else 0 := by
  set ω := Complex.exp (2 * (Real.pi : ℂ) * Complex.I / (N : ℂ)) with hωdef
  have hprim : IsPrimitiveRoot ω N := Complex.isPrimitiveRoot_exp N hN
  have hne : ω ≠ 0 := Complex.exp_ne_zero _
  have hconj : (starRingEnd ℂ) ω = ω⁻¹ := by
    rw [hωdef, ← Complex.exp_conj, ← Complex.exp_neg]
    congr 1
    rw [map_div₀, map_mul, map_mul, Complex.conj_I, Complex.conj_ofReal,
      map_ofNat, Complex.conj_natCast]
    ring
  have hterm : ∀ j, ((starRingEnd ℂ) ω) ^ (s * j) * ω ^ (j * u)
      = (ω⁻¹ ^ s * ω ^ u) ^ j := by
    intro j
    rw [hconj, mul_pow, ← pow_mul, ← pow_mul, mul_comm j u]
  simp only [hterm]
  by_cases hus : u = s
  · subst hus
    have hζ : ω⁻¹ ^ u * ω ^ u = 1 := by
      rw [inv_pow]
      exact inv_mul_cancel₀ (pow_ne_zero u hne)
    rw [if_pos rfl, hζ]
    simp
  · rw [if_neg hus]
    have hζN : (ω⁻¹ ^ s * ω ^ u) ^ N = 1 := by
      rw [mul_pow, pow_right_comm ω⁻¹ s N, pow_right_comm ω u N, inv_pow,
        hprim.pow_eq_one, inv_one, one_pow, one_pow, one_mul]
    have hζ1 : ω⁻¹ ^ s * ω ^ u ≠ 1 := by
      intro h
      have hpow : ω ^ u = ω ^ s := by
        have h2 : ω ^ s * (ω⁻¹ ^ s * ω ^ u) = ω ^ s * 1 := by rw [h]
        rw [inv_pow, mul_one, ← mul_assoc,
          mul_inv_cancel₀ (pow_ne_zero s hne), one_mul] at h2
        exact h2
      exact hus (hprim.pow_inj hu hs hpow)
    rw [geom_sum_eq hζ1, hζN, sub_self, zero_div]

/-- Pointwise inverse round trip: bin `s` of
`Normalise (conj (CT (conj (CT x))))` is exactly `x_s`. -/
theorem inverse_forward_getD (m : ℕ) (hm : m ≤ 32) (x : List ℂ)
    (hlen : x.length = 2 ^ m) (s : ℕ) (hs : s < 2 ^ m) :
    (Normalise (conjugateVec
        (CooleyTukeyFFT (conjugateVec (CooleyTukeyFFT x))))).getD s 0
      = x.getD s 0 := by
  have hN0 : (2 : ℕ) ^ m ≠ 0 := by positivity
  have hNc : ((2 ^ m : ℕ) : ℂ) ≠ 0 := Nat.cast_ne_zero.mpr hN0
  have hylen : (CooleyTukeyFFT x).length = 2 ^ m := by
    rw [CooleyTukeyFFT_length, hlen]
  have hwlen : (conjugateVec (CooleyTukeyFFT x)).length = 2 ^ m := by
    rw [conjugateVec_length, hylen]
  have hzlen : (CooleyTukeyFFT (conjugateVec (CooleyTukeyFFT x))).length
      = 2 ^ m := by
    rw [CooleyTukeyFFT_length, hwlen]
  have hvlen : (conjugateVec
      (CooleyTukeyFFT (conjugateVec (CooleyTukeyFFT x)))).length = 2 ^ m := by
    rw [conjugateVec_length, hzlen]
  rw [Normalise_getD _ s (by rw [hvlen]; exact hs), hvlen,
    conjugateVec_getD _ s (by rw [hzlen]; exact hs),
    CooleyTukeyFFT_dft m hm _ hwlen s hs, dft, map_sum]
  have hterm1 : ∀ j ∈ Finset.range (2 ^ m),
      (starRingEnd ℂ)
          (Complex.exp (2 * (Real.pi : ℂ) * Complex.I / ((2 ^ m : ℕ) : ℂ))
              ^ (s * j)
            * (conjugateVec (CooleyTukeyFFT x)).getD j 0)
        = ((starRingEnd ℂ)
              (Complex.exp (2 * (Real.pi : ℂ) * Complex.I / ((2 ^ m : ℕ) : ℂ))))
            ^ (s * j)
          * (CooleyTukeyFFT x).getD j 0 := by
    intro j hj
    rw [map_mul, map_pow,
      conjugateVec_getD _ j (by rw [hylen]; exact Finset.mem_range.1 hj),
      Complex.conj_conj]
  rw [Finset.sum_congr rfl hterm1]
  have hterm2 : ∀ j ∈ Finset.range (2 ^ m),
      ((starRingEnd ℂ)
            (Complex.exp (2 * (Real.pi : ℂ) * Complex.I / ((2 ^ m : ℕ) : ℂ))))
          ^ (s * j)
        * (CooleyTukeyFFT x).getD j 0
      = ∑ u ∈ Finset.range (2 ^ m),
          ((starRingEnd ℂ)
                (Complex.exp (2 * (Real.pi : ℂ) * Complex.I / ((2 ^ m : ℕ) : ℂ))))
              ^ (s * j)
            * (Complex.exp (2 * (Real.pi : ℂ) * Complex.I / ((2 ^ m : ℕ) : ℂ))
                  ^ (j * u)
                * x.getD u 0) := by
    intro j hj
    rw [CooleyTukeyFFT_dft m hm x hlen j (Finset.mem_range.1 hj), dft,
      Finset.mul_sum]
  rw [Finset.sum_congr rfl hterm2, Finset.sum_comm]
  have hterm3 : ∀ u ∈ Finset.range (2 ^ m),
      (∑ j ∈ Finset.range (2 ^ m),
        ((starRingEnd ℂ)
              (Complex.exp (2 * (Real.pi : ℂ) * Complex.I / ((2 ^ m : ℕ) : ℂ))))
            ^ (s * j)
          * (Complex.exp (2 * (Real.pi : ℂ) * Complex.I / ((2 ^ m : ℕ) : ℂ))
                ^ (j * u)
              * x.getD u 0))
      = (if u = s then ((2 ^ m : ℕ) : ℂ) else 0) * x.getD u 0 := by
    intro u hu
    rw [← kernel_orth (2 ^ m) hN0 s u hs (Finset.mem_range.1 hu),
      Finset.sum_mul]
    refine Finset.sum_congr rfl ?_
    intro j _
    ring
  rw [Finset.sum_congr rfl hterm3]
  simp only [ite_mul, zero_mul]
  rw [Finset.sum_ite_eq' (Finset.range (2 ^ m)) s
      (fun u => ((2 ^ m : ℕ) : ℂ) * x.getD u 0),
    if_pos (Finset.mem_range.2 hs), Complex.ofReal_natCast]
  exact mul_div_cancel_left₀ _ hNc

/-- Claim C1: for every complex buffer whose length is a power of two
`2 ^ m` (with `m ≤ 32`, the width of the `uint32_t` bit-reversal in the
kernel), `Forward` succeeds and `Inverse` applied to its output — which
conjugates every bin, reruns the forward kernel, conjugates again and
normalises by `N` — returns exactly the original buffer. This is the
exact-arithmetic counterpart of the spec's round trip
`Inverse(Forward(x)) ≈ x` within floating tolerance. -/
theorem claim_C1_inverse_forward (m : ℕ) (hm : m ≤ 32) (x : List ℂ)
    (hlen : x.length = 2 ^ m) :
    (Forward x).2 = none ∧
    (Inverse (Forward x).1).2 = none ∧
    (Inverse (Forward x).1).1 = x := by
  have hp : IsPowerOf2 x.length = true := (IsPowerOf2_iff _).2 ⟨m, hlen⟩
  have hfwd : (Forward x).1 = CooleyTukeyFFT x := by rw [Forward, if_pos hp]
  have hylen : (CooleyTukeyFFT x).length = 2 ^ m := by
    rw [CooleyTukeyFFT_length, hlen]
  have hpy : IsPowerOf2 (CooleyTukeyFFT x).length = true :=
    (IsPowerOf2_iff _).2 ⟨m, hylen⟩
  refine ⟨?_, ?_, ?_⟩
  · rw [Forward, if_pos hp]
  · rw [hfwd, Inverse, if_pos hpy]
  · rw [hfwd, Inverse, if_pos hpy]
    apply List.ext_getElem
    · rw [Normalise_length, conjugateVec_length, CooleyTukeyFFT_length,
        conjugateVec_length, hylen, hlen]
    · intro i h1 h2
      have hi : i < 2 ^ m := by
        rw [hlen] at h2
        exact h2
      rw [← List.getD_eq_getElem _ 0 h1, ← List.getD_eq_getElem _ 0 h2]
      exact inverse_forward_getD m hm x hlen i hi

/-- Witness for claim C1 at the length-1 buffer `[1]` (`m = 0`). -/
theorem claim_C1_witness :
    (0 : ℕ) ≤ 32 ∧ ([(1 : ℂ)]).length = 2 ^ 0 ∧
    (Inverse (Forward [(1 : ℂ)]).1).1 = [(1 : ℂ)] :=
  ⟨by norm_num, by decide,
    (claim_C1_inverse_forward 0 (by norm_num) [(1 : ℂ)] (by decide)).2.2⟩

end dsp
